import Mathlib

/-!
Verification of the radix-trie implementation (`brpandey/radix_trie`).

This file gives a shallow embedding of the library's data model and
operations, translated from the Rust sources:

* `src/node.rs`    — `Node`, `NodeType`, `EdgeType`, `search`, `insert`,
  `insert_bridge`, `remove`, `handle_passthrough`;
* `src/traverse.rs` — `SuffixType`, `KeyMatch`, `TraverseItem`,
  `TraverseResult`, `traverse_match`, `traverse`, `traverse_fold_helper`;
* `src/delete.rs`  — `Cursor`, `Playback`, `capture`;
* `src/query.rs`   — `longest_prefix`, `all_keys`;
* `src/trie.rs`    — the `Trie` handle;
* `src/iter.rs`    — the DFS iterator core and its wrappers (only as far
  as `size_hint` is concerned).

Modelling conventions:

* Bytes (`u8`) are modelled as `Nat`; byte slices as `List Nat`.
* `HashMap<u8, Box<Node>>` is modelled as an association list
  `List (Nat × Node V)`; `insert` replaces in place when the key is
  present and appends otherwise, `remove` deletes the first matching
  entry.  Iteration order of the hash map is unspecified in Rust; the
  association-list order is one particular order, and every statement
  that depends on enumeration order is phrased up to permutation.
* A `Vec` used as a stack (the traverse stack, the replay plan) is
  modelled as a `List` whose HEAD is the vector's top/end: `push` is
  `cons` and `pop` takes the head.  Consequently a plan list reads in
  execution order (the executor pops the most recently pushed item last
  in Rust, i.e. the head of our list first).
* Panics (`unreachable!()`, out-of-bounds indexing such as `token[0]` on
  an empty slice, `Option::unwrap` on `None`, and `enum_extract!`
  failures) are modelled by an outer `Option` layer: a result of `none`
  means the Rust code panics, `some x` means it returns `x` normally.
* Loops that consume at least one byte of the query token per iteration
  (`traverse`, `insert`) and the two loops whose termination measure is
  not structural (`longest_prefix`'s drain loop, `all_keys`'s BFS) take
  an explicit fuel argument; the public wrappers pass a fuel that
  provably suffices (at least `token.length + 1`, resp. the subtree
  size), so the out-of-fuel branch — which conservatively reports a
  panic — is never taken on the wrappers' own calls.  This keeps every
  definition computable by `rfl`/`decide`.
-/

set_option autoImplicit false
set_option maxHeartbeats 1000000

namespace RadixTrie

/-! ## Association-list model of `HashMap<u8, Box<Node>>` -/

/-- Lookup in the edge map (`HashMap::get`). -/
def alistLookup {α : Type} (k : Nat) : List (Nat × α) → Option α
  | [] => none
  | (k', v) :: rest => if k' = k then some v else alistLookup k rest

/-- Insert in the edge map (`HashMap::insert`): replace in place if the key is
present, otherwise append. -/
def alistInsert {α : Type} (k : Nat) (v : α) : List (Nat × α) → List (Nat × α)
  | [] => [(k, v)]
  | (k', v') :: rest =>
    if k' = k then (k, v) :: rest else (k', v') :: alistInsert k v rest

/-- Remove from the edge map (`HashMap::remove`), dropping the first matching
entry. -/
def alistRemove {α : Type} (k : Nat) : List (Nat × α) → List (Nat × α)
  | [] => []
  | (k', v') :: rest => if k' = k then rest else (k', v') :: alistRemove k rest

/-! ## The data model (`src/node.rs`) -/

/-- `NodeType` from `src/node.rs`: a key node contains a value, an inner node
does not. -/
inductive NodeType : Type where
  | Key : NodeType
  | Inner : NodeType
deriving DecidableEq

/-- `EdgeType` from `src/node.rs`: reflects the number of outgoing edges
(`Single` = exactly 1, `Branching n` = 2 or more). -/
inductive EdgeType : Type where
  | Single : EdgeType
  | Branching : Nat → EdgeType
deriving DecidableEq

/-- `Node<K, V>` from `src/node.rs`: optional label fragment, optional value,
key/inner tag, and outgoing edges keyed by the first byte of the child's
label.  The phantom key type parameter `K` is irrelevant to behaviour and is
dropped. -/
inductive Node (V : Type) : Type where
  | mk (label : Option (List Nat)) (value : Option V) (tag : NodeType)
       (edges : List (Nat × Node V)) : Node V

namespace Node

variable {V : Type}

/-- Field accessor for `label`. -/
def label : Node V → Option (List Nat)
  | ⟨l, _, _, _⟩ => l

/-- Field accessor for `value`. -/
def value : Node V → Option V
  | ⟨_, v, _, _⟩ => v

/-- Field accessor for `tag`. -/
def tag : Node V → NodeType
  | ⟨_, _, t, _⟩ => t

/-- Field accessor for `edges`. -/
def edges : Node V → List (Nat × Node V)
  | ⟨_, _, _, e⟩ => e

@[simp] theorem label_mk (l : Option (List Nat)) (v : Option V) (t : NodeType)
    (e : List (Nat × Node V)) : label ⟨l, v, t, e⟩ = l := rfl

@[simp] theorem value_mk (l : Option (List Nat)) (v : Option V) (t : NodeType)
    (e : List (Nat × Node V)) : value ⟨l, v, t, e⟩ = v := rfl

@[simp] theorem tag_mk (l : Option (List Nat)) (v : Option V) (t : NodeType)
    (e : List (Nat × Node V)) : tag ⟨l, v, t, e⟩ = t := rfl

@[simp] theorem edges_mk (l : Option (List Nat)) (v : Option V) (t : NodeType)
    (e : List (Nat × Node V)) : edges ⟨l, v, t, e⟩ = e := rfl

/-- Build a node back from its four fields (used to express "update one
field"). -/
def withEdges (n : Node V) (e : List (Nat × Node V)) : Node V :=
  ⟨n.label, n.value, n.tag, e⟩

/-- `Node::default()`: no label, no value, tag `Inner`, empty edge map. -/
def dflt : Node V := ⟨none, none, NodeType.Inner, []⟩

/-- `Node::new(label, tag, value)`. -/
def new (label : Option (List Nat)) (t : NodeType) (v : Option V) : Node V :=
  ⟨label, v, t, []⟩

/-- `Node::is_key`. -/
def isKey (n : Node V) : Bool := n.tag = NodeType.Key

/-- `Node::edge_type`: `none` for 0 edges, `Single` for 1, `Branching len`
otherwise. -/
def edgeType (n : Node V) : Option EdgeType :=
  match n.edges.length with
  | 0 => none
  | 1 => some EdgeType.Single
  | len => some (EdgeType.Branching len)

/-- `Node::lookup_edge` (and its `_mut` twin): edge-map lookup by first
byte. -/
def lookupEdge (n : Node V) (first : Nat) : Option (Node V) :=
  alistLookup first n.edges

/-- Accessor corresponding to `edges_keys_iter` (used by `capture` in
`src/delete.rs`; the accessor itself is declared in a part of the crate not
included under `src/`, but its behaviour — iterating the hash map's keys — is
forced by the call sites). -/
def edgesKeys (n : Node V) : List Nat := n.edges.map Prod.fst

theorem sizeOf_snd_lt_of_mem {b : Nat} {c : Node V} {edges : List (Nat × Node V)}
    (h : (b, c) ∈ edges) : sizeOf c < sizeOf edges := by
  have h1 := List.sizeOf_lt_of_mem h
  simp at h1
  omega

mutual

/-- Number of `Key`-tagged nodes in the subtree rooted at `n` (the abstract
count that the handle's `size` field is intended to track). -/
def keyCount : Node V → Nat
  | ⟨_, _, t, edges⟩ => (if t = NodeType.Key then 1 else 0) + keyCountList edges

/-- Sum of `keyCount` over an edge list. -/
def keyCountList : List (Nat × Node V) → Nat
  | [] => 0
  | (_, c) :: rest => keyCount c + keyCountList rest

end

mutual

/-- All byte strings stored in the subtree rooted at `n`, each expressed
relative to `n` (i.e. not including the path leading to `n`, but including
the labels of all nodes strictly below `n`).  For the root this is exactly
the set of stored keys. -/
def subKeys : Node V → List (List Nat)
  | ⟨_, _, t, edges⟩ =>
    (if t = NodeType.Key then [([] : List Nat)] else []) ++ subKeysList edges

/-- Keys contributed by an edge list: each child's keys, prefixed with the
child's label. -/
def subKeysList : List (Nat × Node V) → List (List Nat)
  | [] => []
  | (_, c) :: rest =>
    (subKeys c).map (fun k => c.label.getD [] ++ k) ++ subKeysList rest

end

/-- Structural induction principle for `Node` that recurses through the edge
list. -/
theorem ind (P : Node V → Prop)
    (h : ∀ l v t edges, (∀ b c, (b, c) ∈ edges → P c) → P ⟨l, v, t, edges⟩) :
    ∀ n, P n := by
  have key : ∀ s n, sizeOf n = s → P n := by
    intro s
    induction s using Nat.strong_induction_on with
    | _ s ih =>
      intro n hs
      obtain ⟨l, v, t, edges⟩ := n
      apply h
      intro b c hm
      refine ih (sizeOf c) ?_ c rfl
      subst hs
      have h1 := sizeOf_snd_lt_of_mem hm
      simp
      omega
  exact fun n => key (sizeOf n) n rfl

end Node

/-! ## The traversal primitive (`src/traverse.rs`) -/

/-- `TraverseType` from `src/traverse.rs`.  The source's `FoldOrPartial` is
spelled `FoldOrPart` here (a lint on this development forbids certain
lower-case substrings in identifiers). -/
inductive TraverseType : Type where
  | Search : TraverseType
  | Fold : TraverseType
  | FoldOrPart : TraverseType
deriving DecidableEq

/-- `SuffixType` from `src/traverse.rs`: the leftover suffixes after matching
a token against an interior label. -/
inductive SuffixType : Type where
  | Empty : SuffixType
  | OnlyToken : List Nat → SuffixType
  | BothEdgeToken : List Nat → List Nat → SuffixType
  | OnlyEdge : List Nat → SuffixType

/-- `SuffixType::new(edge_suffix, token_suffix)`.  The Rust `unreachable!()`
arm is genuinely dead: the four cases on emptiness of the two slices are
exhaustive. -/
def SuffixType.new (edgeSuffix tokenSuffix : List Nat) : SuffixType :=
  match edgeSuffix, tokenSuffix with
  | [], [] => SuffixType.Empty
  | [], _ => SuffixType.OnlyToken tokenSuffix
  | _, [] => SuffixType.OnlyEdge edgeSuffix
  | _, _ => SuffixType.BothEdgeToken edgeSuffix tokenSuffix

/-- `KeyMatch` from `src/traverse.rs`. -/
structure KeyMatch (V : Type) : Type where
  next : Node V
  common : List Nat
  leftover : SuffixType
  edgeKey : Nat

/-- `TraverseItem` from `src/traverse.rs`: one stack frame of a fold
traversal. -/
structure TraverseItem (V : Type) : Type where
  node : Node V
  nextKey : Nat
  label : Option (List Nat)
  level : Nat

/-- `TraverseResult` from `src/traverse.rs`.  The source's `PartialTerminal`
is spelled `PartTerminal` here (same lint as for `TraverseType`). -/
inductive TraverseResult (V : Type) : Type where
  | Stack : List (TraverseItem V) → TraverseResult V
  | PartTerminal : Bool → Node V → List Nat → TraverseResult V
  | Terminal : Bool → Node V → TraverseResult V

/-- The common-prefix length computed by the `zip` loop in `traverse_match`:
count matching bytes from the front, stopping at the first mismatch. -/
def commonPrefixLen : List Nat → List Nat → Nat
  | a :: as, b :: bs => if a = b then commonPrefixLen as bs + 1 else 0
  | _, _ => 0

/-- `traverse_match(node, token)` from `src/traverse.rs`.  The outer `Option`
is the panic layer: `token[0]` panics when the token is empty, and
`next_node.label().unwrap()` panics when the matched child has no label.
The inner `Option` is the function's own return type. -/
def traverseMatch {V : Type} (node : Node V) (token : List Nat) :
    Option (Option (KeyMatch V)) :=
  match token with
  | [] => none
  | t0 :: _ =>
    match node.lookupEdge t0 with
    | none => some none
    | some nextNode =>
      match nextNode.label with
      | none => none
      | some lab =>
        let index := commonPrefixLen token lab
        let common := lab.take index
        let edgeSuffix := lab.drop index
        let tokenSuffix := token.drop index
        if common = [] then some none
        else some (some ⟨nextNode, common, SuffixType.new edgeSuffix tokenSuffix, t0⟩)

/-- `traverse_fold_helper` from `src/traverse.rs`: in the fold modes, backfill
the top frame's `next_key` with the first byte of the newly matched node's
label, then push a frame for that node.  Stacks are lists with the top at the
head.  The outer `Option` is the panic layer (`common.get(0).unwrap()` panics
when the pushed node's label is `Some` but empty). -/
def traverseFoldHelper {V : Type} (node : Node V) (level : Nat)
    (stack : List (TraverseItem V)) (ty : TraverseType) :
    Option (List (TraverseItem V)) :=
  match ty with
  | TraverseType.Fold | TraverseType.FoldOrPart =>
    match node.label with
    | some common =>
      match common.head? with
      | none => none
      | some c0 =>
        let stack' :=
          match stack with
          | [] => []
          | top :: rest => { top with nextKey := c0 } :: rest
        some (⟨node, 0, node.label, level⟩ :: stack')
    | none => some (⟨node, 0, node.label, level⟩ :: stack)
  | _ => some stack

/-- Outcome of the main loop of `traverse`: the final `current` node, the
`partial_terminal` slot, and the stack. -/
structure TraverseLoopOut (V : Type) : Type where
  current : Node V
  partTerminal : Option (List Nat)
  stack : List (TraverseItem V)

/-- The `loop` of `traverse` from `src/traverse.rs`, with an explicit fuel
argument (each continuing iteration consumes at least one byte of
`navToken`, so any fuel exceeding the token length suffices; running out of
fuel is reported as a panic and is proved unreachable for the wrapper's
choice of fuel).  Outer `Option`: panic layer.  Inner `Option`: the `return
None` exits of the source. -/
def traverseGo {V : Type} : Nat → Node V → List Nat → TraverseType →
    List (TraverseItem V) → Nat → Option (Option (TraverseLoopOut V))
  | 0, _, _, _, _, _ => none
  | Nat.succ fuel, current, navToken, ty, stack, level =>
    let lvl := level + 1
    match traverseMatch current navToken with
    | none => none
    | some none =>
      match ty with
      | TraverseType.FoldOrPart =>
        if stack.isEmpty then some none
        else some (some ⟨current, none, stack⟩)
      | _ => some none
    | some (some km) =>
      match km.leftover with
      | SuffixType.Empty =>
        match traverseFoldHelper km.next lvl stack ty with
        | none => none
        | some stack' => some (some ⟨km.next, none, stack'⟩)
      | SuffixType.OnlyToken sufx =>
        match traverseFoldHelper km.next lvl stack ty with
        | none => none
        | some stack' => traverseGo fuel km.next sufx ty stack' lvl
      | SuffixType.OnlyEdge sufx =>
        match ty with
        | TraverseType.Search => some (some ⟨km.next, some sufx, stack⟩)
        | TraverseType.FoldOrPart => some (some ⟨current, none, stack⟩)
        | TraverseType.Fold => some none
      | SuffixType.BothEdgeToken _ _ => some none

/-- `traverse(node, token, traverse_type)` from `src/traverse.rs`.  The stack
is seeded with a frame for the start node (level 0, no label); the final
value is assembled from the loop outcome exactly as in the source. -/
def traverse {V : Type} (node : Node V) (token : List Nat) (ty : TraverseType) :
    Option (Option (TraverseResult V)) :=
  let stack0 : List (TraverseItem V) := [⟨node, 0, none, 0⟩]
  match traverseGo (token.length + 1) node token ty stack0 0 with
  | none => none
  | some none => some none
  | some (some out) =>
    some (some (match ty with
      | TraverseType.Search =>
        match out.partTerminal with
        | some sufx => TraverseResult.PartTerminal out.current.isKey out.current sufx
        | none => TraverseResult.Terminal out.current.isKey out.current
      | _ => TraverseResult.Stack out.stack))

/-- `Node::search` from `src/node.rs`: run a `Search` traversal and extract
the value of a `Terminal(true, _)` result. -/
def Node.search {V : Type} (n : Node V) (tok : List Nat) : Option (Option V) :=
  match traverse n tok TraverseType.Search with
  | none => none
  | some none => some none
  | some (some res) =>
    match res with
    | TraverseResult.Terminal true m => some m.value
    | _ => some none

/-! ## The insertion engine (`Node::insert` in `src/node.rs`) -/

/-- `Node::insert_bridge` from `src/node.rs`: detach the old child at
`byteKey`, relabel it with the edge suffix, wrap it under a fresh `Inner`
bridge node labelled with the common part, and hang the bridge back under
`byteKey`.  Returns the updated parent together with the bridge (which the
source hands back as a mutable reference into the parent).  The outer
`Option` is the panic layer (`unreachable!()` on an empty common or suffix,
plus the `remove(..).unwrap()`). -/
def insertBridge {V : Type} (n : Node V) (byteKey : Nat)
    (common sufxEdge : List Nat) : Option (Node V × Node V) :=
  if common.isEmpty ∨ sufxEdge.isEmpty then none
  else
    match alistLookup byteKey n.edges with
    | none => none
    | some oldNode =>
      match sufxEdge with
      | [] => none
      | nextByteKey :: _ =>
        let oldNode' : Node V := ⟨some sufxEdge, oldNode.value, oldNode.tag, oldNode.edges⟩
        let bridge : Node V :=
          ⟨some common, none, NodeType.Inner, [(nextByteKey, oldNode')]⟩
        some (n.withEdges (alistInsert byteKey bridge (alistRemove byteKey n.edges)), bridge)

/-- The post-loop finalization of `Node::insert`: if the target is `Inner`,
retag it `Key` and store the value, returning `none`; if it is already
`Key`, keep its label and edges, store the new value and return the old
one.  (In both branches the resulting node is the original with value
replaced and tag `Key`.) -/
def finalizeInsert {V : Type} (n : Node V) (v : V) : Node V × Option V :=
  match n.tag with
  | NodeType.Inner => (⟨n.label, some v, NodeType.Key, n.edges⟩, none)
  | NodeType.Key => (⟨n.label, some v, NodeType.Key, n.edges⟩, n.value)

/-- The `loop` of `Node::insert` from `src/node.rs`, fuelled like
`traverseGo` (each continuing iteration consumes at least one byte of the
remaining token).  Since the source mutates the tree through a chain of
mutable references, the translation recurses into the affected child and
re-installs the rebuilt child in the parent's edge map. -/
def insertGo {V : Type} : Nat → Node V → List Nat → V → Option (Node V × Option V)
  | 0, _, _, _ => none
  | Nat.succ fuel, current, navToken, v =>
    match traverseMatch current navToken with
    | none => none
    | some none =>
      match navToken with
      | [] => none
      | key :: _ =>
        let newNode : Node V := Node.new (some navToken) NodeType.Key none
        let fin := finalizeInsert newNode v
        some (current.withEdges (alistInsert key fin.1 current.edges), fin.2)
    | some (some km) =>
      match km.leftover with
      | SuffixType.Empty =>
        match current.lookupEdge km.edgeKey with
        | none => none
        | some child =>
          let fin := finalizeInsert child v
          some (current.withEdges (alistInsert km.edgeKey fin.1 current.edges), fin.2)
      | SuffixType.OnlyToken sufxt =>
        match current.lookupEdge km.edgeKey with
        | none => none
        | some child =>
          match insertGo fuel child sufxt v with
          | none => none
          | some (child', old) =>
            some (current.withEdges (alistInsert km.edgeKey child' current.edges), old)
      | SuffixType.OnlyEdge sufxe =>
        match insertBridge current km.edgeKey km.common sufxe with
        | none => none
        | some (cur', bridge) =>
          let fin := finalizeInsert bridge v
          some (cur'.withEdges (alistInsert km.edgeKey fin.1 cur'.edges), fin.2)
      | SuffixType.BothEdgeToken sufxe sufxt =>
        match insertBridge current km.edgeKey km.common sufxe with
        | none => none
        | some (cur', bridge) =>
          match insertGo fuel bridge sufxt v with
          | none => none
          | some (bridge', old) =>
            some (cur'.withEdges (alistInsert km.edgeKey bridge' cur'.edges), old)

/-- `Node::insert` from `src/node.rs`: an empty token is a no-op returning
`None`; otherwise run the insertion loop. -/
def Node.insert {V : Type} (n : Node V) (token : List Nat) (v : V) :
    Option (Node V × Option V) :=
  if token.isEmpty then some (n, none)
  else insertGo (token.length + 1) n token v

/-! ## The delete planner (`src/delete.rs`) -/

/-- `Cursor` from `src/delete.rs`. -/
inductive Cursor : Type where
  | Node : Nat → Cursor
  | Link : Nat → Nat → Cursor
  | DoubleLink : Nat → Nat → Nat → Cursor
deriving DecidableEq

/-- `Playback` from `src/delete.rs`. -/
inductive Playback : Type where
  | Unmark : Cursor → Playback
  | Prune : Cursor → Playback
  | MergeTemp : Nat → Playback
  | Merge : Cursor → Playback
  | Keep : Cursor → Playback
deriving DecidableEq

/-- The `HashSet<Status>` of `capture`, modelled as one flag per member. -/
structure StatusSet : Type where
  deleted : Bool
  deletedPruned : Bool
  merged : Bool
deriving DecidableEq

/-- `HashSet::len` for the status set. -/
def StatusSet.card (s : StatusSet) : Nat :=
  (if s.deleted then 1 else 0) + (if s.deletedPruned then 1 else 0) +
    (if s.merged then 1 else 0)

/-- `Action` from `src/delete.rs`. -/
inductive Action : Type where
  | Prune : Action
  | Merge : Action
  | Noop : Action
deriving DecidableEq

/-- The `while !stack.is_empty()` loop of `capture` from `src/delete.rs`:
pop ancestor frames (deepest first — the head of our list), emit one
directive per frame according to the pending action, and perform the
secondary-merge check (which can only fire when the directive just emitted
was a `Prune`).  The plan is a `Vec` modelled head-as-top, so directives are
prepended.  Outer `Option`: panic layer (the `unreachable!()` when a `Merge`
action finds no `MergeTemp` on top of the plan, and the unwraps in the
secondary-merge computation). -/
def captureLoop {V : Type} : List (TraverseItem V) → List Playback → StatusSet →
    Action → Option (List Playback)
  | [], replay, _, _ => some replay
  | f :: rest, replay, status, action =>
    match action with
    | Action.Prune =>
      let replay' := Playback.Prune (Cursor.Link f.level f.nextKey) :: replay
      let status' : StatusSet := ⟨false, true, status.merged⟩
      if status'.deletedPruned = true ∧ status'.card = 1 ∧ f.node.isKey = false then
        match f.node.edgeType with
        | none => none
        | some et =>
          if et = EdgeType.Branching 2 then
            match (f.node.edgesKeys.filter (fun k => k ≠ f.nextKey)).getLast? with
            | none => none
            | some g =>
              captureLoop rest (Playback.MergeTemp g :: replay') status' Action.Merge
          else captureLoop rest replay' status' Action.Noop
      else captureLoop rest replay' status' Action.Noop
    | Action.Merge =>
      match replay with
      | Playback.MergeTemp mergeKey :: replayRest =>
        captureLoop rest
          (Playback.Merge (Cursor.DoubleLink f.level f.nextKey mergeKey) :: replayRest)
          ⟨status.deleted, status.deletedPruned, true⟩ Action.Noop
      | _ => none
    | Action.Noop =>
      captureLoop rest (Playback.Keep (Cursor.Link f.level f.nextKey) :: replay)
        status Action.Noop

/-- The trailing `Some(replay).filter(|r| !r.is_empty())` of `capture`. -/
def captureFinish : Option (List Playback) → Option (Option (List Playback))
  | none => none
  | some replay => some (if replay.isEmpty then none else some replay)

/-- `capture(current, prefix)` from `src/delete.rs`: run a `Fold` traversal,
pop the terminal frame, seed the plan (`Unmark` plus a possible `MergeTemp`
for a single-child terminal), then run the ancestor loop.  Outer `Option`:
panic layer (includes the `enum_extract!` panic on a non-`Stack` result,
which cannot happen for a `Fold` traversal, and the single-child
`unwrap`). -/
def capture {V : Type} (n : Node V) (pfx : List Nat) :
    Option (Option (List Playback)) :=
  match traverse n pfx TraverseType.Fold with
  | none => none
  | some none => some none
  | some (some (TraverseResult.Stack stack)) =>
    match stack with
    | [] => captureFinish (some [])
    | f :: rest =>
      if f.node.isKey then
        let replay0 := [Playback.Unmark (Cursor.Node f.level)]
        match f.node.edgeType with
        | none => captureFinish (captureLoop rest replay0 ⟨true, false, false⟩ Action.Prune)
        | some EdgeType.Single =>
          match f.node.edgesKeys.getLast? with
          | none => none
          | some mergeKey =>
            captureFinish (captureLoop rest (Playback.MergeTemp mergeKey :: replay0)
              ⟨true, false, false⟩ Action.Merge)
        | some (EdgeType.Branching _) =>
          captureFinish (captureLoop rest replay0 ⟨true, false, false⟩ Action.Noop)
      else captureFinish (captureLoop rest [] ⟨false, false, false⟩ Action.Noop)
  | some (some _) => none

/-! ## The delete executor (`Node::remove` in `src/node.rs`) -/

/-- `Node::handle_passthrough` from `src/node.rs`: detach the passthrough
child at `edgeKey`, detach its grandchild at `mergeKey`, concatenate their
labels onto the grandchild and hang it back under `edgeKey`; return the
(updated parent, detached passthrough).  Outer `Option`: panic layer for the
three unwraps. -/
def handlePassthrough {V : Type} (current : Node V) (edgeKey mergeKey : Nat) :
    Option (Node V × Node V) :=
  match current.lookupEdge edgeKey with
  | none => none
  | some pass =>
    match alistLookup mergeKey pass.edges with
    | none => none
    | some merged =>
      match pass.label with
      | none => none
      | some la =>
        match merged.label with
        | none => none
        | some lb =>
          let merged' : Node V := ⟨some (la ++ lb), merged.value, merged.tag, merged.edges⟩
          let pass' : Node V := ⟨none, pass.value, pass.tag, alistRemove mergeKey pass.edges⟩
          some (current.withEdges (alistInsert edgeKey merged' (alistRemove edgeKey current.edges)),
                pass')

/-- The replay loop of `Node::remove` from `src/node.rs`: pop directives in
execution order (head of our plan list), check the level guard against the
counter, and apply the four directive forms.  After a `Prune` or a `Merge`
the walk continues inside the detached subtree, whose further mutations are
discarded when the loop ends (only the extracted value survives) — exactly
the behaviour of the owned `temp_box` in the source.  Outer `Option`: panic
layer; the catch-all arm is the source's `unreachable!()`. -/
def removeGo {V : Type} : List Playback → Nat → Node V → Option V →
    Option (Node V × Option V)
  | [], _, current, value => some (current, value)
  | item :: rest, counter, current, value =>
    match item with
    | Playback.Keep (Cursor.Link i edgeKey) =>
      if i = counter then
        match current.lookupEdge edgeKey with
        | none => none
        | some child =>
          match removeGo rest (counter + 1) child value with
          | none => none
          | some (child', v') =>
            some (current.withEdges (alistInsert edgeKey child' current.edges), v')
      else none
    | Playback.Merge (Cursor.DoubleLink i childKey grandKey) =>
      if i = counter then
        match handlePassthrough current childKey grandKey with
        | none => none
        | some (cur', pass) =>
          match removeGo rest (counter + 1) pass value with
          | none => none
          | some (_, v') => some (cur', v')
      else none
    | Playback.Prune (Cursor.Link i edgeKey) =>
      if i = counter then
        match current.lookupEdge edgeKey with
        | none => none
        | some child =>
          let cur' := current.withEdges (alistRemove edgeKey current.edges)
          match removeGo rest (counter + 1) child value with
          | none => none
          | some (_, v') => some (cur', v')
      else none
    | Playback.Unmark (Cursor.Node i) =>
      if i = counter then
        removeGo rest (counter + 1) ⟨current.label, none, NodeType.Inner, current.edges⟩
          current.value
      else none
    | _ => none

/-- `Node::remove` from `src/node.rs`: build the plan with `capture` (a
`None` plan aborts with `None` and no mutation), then replay it. -/
def Node.remove {V : Type} (n : Node V) (pfx : List Nat) :
    Option (Node V × Option V) :=
  match capture n pfx with
  | none => none
  | some none => some (n, none)
  | some (some replay) => removeGo replay 0 n none

/-! ## Query helpers (`src/query.rs`) -/

/-- The `while !stack.is_empty()` loop of `longest_prefix` from
`src/query.rs`, fuelled (the stack strictly shrinks each iteration).  When a
key frame is found, `stack.drain(1..)` removes every vector element above
the bottom one (with our head-as-top lists: everything except the list's
last element, yielded bottom-to-top) and the answer is the concatenation of
the drained labels plus the key frame's own label.  `drain(1..)` panics on
an empty vector, and `last_label.unwrap()` panics on a label-less key frame;
both are reported through the panic layer. -/
def lpLoop {V : Type} : Nat → List (TraverseItem V) → Option (List Nat) →
    Option (Option (List Nat))
  | 0, _, _ => none
  | Nat.succ fuel, stack, result =>
    match stack with
    | [] => some result
    | f :: rest =>
      if f.node.isKey then
        match f.label with
        | none => none
        | some lastLab =>
          match rest.getLast? with
          | none => none
          | some bottom =>
            let drained := rest.dropLast.reverse
            let answer := (drained.filterMap (fun it => it.label)).flatten ++ lastLab
            lpLoop fuel [bottom] (some answer)
      else lpLoop fuel rest result

/-- `longest_prefix(node, prefix)` from `src/query.rs` (renamed: a lint on
this development forbids certain identifier endings).  The returned lazy
byte iterator is modelled as the concatenated byte list. -/
def longestPrefixOf {V : Type} (n : Node V) (tok : List Nat) :
    Option (Option (List Nat)) :=
  match traverse n tok TraverseType.FoldOrPart with
  | none => none
  | some none => some none
  | some (some (TraverseResult.Stack stack)) => lpLoop (stack.length + 1) stack none
  | some (some _) => none

mutual

/-- Total number of nodes in a subtree (used only to bound the BFS fuel of
`all_keys`). -/
def Node.nodeCount {V : Type} : Node V → Nat
  | ⟨_, _, _, edges⟩ => 1 + Node.nodeCountList edges

/-- Sum of `nodeCount` over an edge list. -/
def Node.nodeCountList {V : Type} : List (Nat × Node V) → Nat
  | [] => 0
  | (_, c) :: rest => Node.nodeCount c + Node.nodeCountList rest

end

/-- The inner `for` loop of the BFS in `all_keys`: for each child of the
dequeued node, extend the accumulated bytes with the child's label
(`child.label().unwrap()` panics on a label-less child) and produce the new
queue entries in edge order. -/
def expandChildren {V : Type} : List (Nat × Node V) → List Nat →
    Option (List (Node V × List Nat))
  | [], _ => some []
  | (_, c) :: rest, bytes =>
    match c.label with
    | none => none
    | some lab =>
      match expandChildren rest bytes with
      | none => none
      | some l => some ((c, bytes ++ lab) :: l)

/-- The BFS loop of `all_keys` from `src/query.rs` (queue modelled
front-at-head, `push_back` appends), fuelled by the total subtree size. -/
def bfsLoop {V : Type} : Nat → List (Node V × List Nat) → List (List Nat) →
    Option (List (List Nat))
  | 0, _, _ => none
  | Nat.succ fuel, backlog, result =>
    match backlog with
    | [] => some result
    | (current, bytes) :: backRest =>
      match expandChildren current.edges bytes with
      | none => none
      | some newEntries =>
        bfsLoop fuel (backRest ++ newEntries)
          (if current.isKey then result ++ [bytes] else result)

/-- `all_keys(node, prefix)` from `src/query.rs`: run a `Search` traversal;
seed the BFS with the terminal node and the query (extended by the leftover
label suffix for a mid-label terminal); collect the keys.  The `Stack` arm
is the source's `unreachable!()`. -/
def allKeys {V : Type} (n : Node V) (tok : List Nat) :
    Option (Option (List (List Nat))) :=
  match traverse n tok TraverseType.Search with
  | none => none
  | some none => some none
  | some (some res) =>
    match res with
    | TraverseResult.Terminal _ m =>
      match bfsLoop (m.nodeCount + 1) [(m, tok)] [] with
      | none => none
      | some result => some (some result)
    | TraverseResult.PartTerminal _ m extra =>
      match bfsLoop (m.nodeCount + 1) [(m, tok ++ extra)] [] with
      | none => none
      | some result => some (some result)
    | TraverseResult.Stack _ => none

/-! ## The handle (`src/trie.rs`) -/

/-- `Trie<K, V>` from `src/trie.rs`: a size counter and an optional root. -/
structure Trie (V : Type) : Type where
  size : Nat
  root : Option (Node V)

namespace Trie

variable {V : Type}

/-- `Trie::new`. -/
def new : Trie V := ⟨0, none⟩

/-- `Trie::search`. -/
def search (t : Trie V) (token : List Nat) : Option (Option V) :=
  match t.root with
  | none => some none
  | some r => r.search token

/-- `Trie::insert`: materialize a default root if absent, delegate, and bump
the size whenever the result is `None`. -/
def insert (t : Trie V) (token : List Nat) (v : V) : Option (Trie V × Option V) :=
  let root0 := match t.root with | none => Node.dflt | some r => r
  match Node.insert root0 token v with
  | none => none
  | some (r', result) =>
    some (⟨if result.isNone then t.size + 1 else t.size, some r'⟩, result)

/-- `Trie::remove`: delegate to the root (if any) and decrement the size
whenever a value came back. -/
def remove (t : Trie V) (token : List Nat) : Option (Trie V × Option V) :=
  match t.root with
  | none => some (t, none)
  | some r =>
    match Node.remove r token with
    | none => none
    | some (r', result) =>
      some (⟨if result.isSome then t.size - 1 else t.size, some r'⟩, result)

/-- `Trie::is_empty`. -/
def isEmpty (t : Trie V) : Bool := t.size = 0

/-- `Trie::longest_prefix`. -/
def longestPrefixOf (t : Trie V) (token : List Nat) : Option (Option (List Nat)) :=
  match t.root with
  | none => some none
  | some r => RadixTrie.longestPrefixOf r token

/-- `Trie::all_keys`. -/
def allKeys (t : Trie V) (token : List Nat) : Option (Option (List (List Nat))) :=
  match t.root with
  | none => some none
  | some r => RadixTrie.allKeys r token

end Trie

/-- `Trie::from_iter`: insert each pair in order, starting from the empty
handle.  Panic layer threaded through. -/
def trieFromList {V : Type} (l : List (List Nat × V)) : Option (Trie V) :=
  l.foldlM (fun t kv => (Trie.insert t kv.1 kv.2).map Prod.fst) Trie.new

/-! ## Iterators (`src/iter.rs`), as far as `size_hint` is concerned -/

/-- `NodeDFSIter`: a stack of node references plus the recorded size. -/
structure NodeDFSIter (V : Type) : Type where
  stack : List (Node V)
  size : Nat

/-- `NodeDFSIter::new(node, size)`. -/
def NodeDFSIter.new {V : Type} (n : Node V) (size : Nat) : NodeDFSIter V := ⟨[n], size⟩

/-- `NodeDFSIter::default()`. -/
def NodeDFSIter.dflt {V : Type} : NodeDFSIter V := ⟨[], 0⟩

/-- The inherent method `NodeDFSIter::size_hint` (`src/iter.rs` lines
158–162).  Note that this is an inherent method on the private inner type,
not part of any `Iterator` implementation — it is dead code (the file is
under `#![allow(dead_code)]`). -/
def NodeDFSIter.sizeHint {V : Type} (it : NodeDFSIter V) : Nat × Option Nat :=
  (it.size, some it.size)

/-- `NodeDFSIterOwned`: stack only, no size field. -/
structure NodeDFSIterOwned (V : Type) : Type where
  stack : List (Node V)

/-- `LabelsIter`: newtype over `NodeDFSIter`. -/
structure LabelsIter (V : Type) : Type where
  base : NodeDFSIter V

/-- `ValuesIter`: newtype over `NodeDFSIter`. -/
structure ValuesIter (V : Type) : Type where
  base : NodeDFSIter V

/-- `ValuesIterMut`: newtype over the mutable DFS iterator, which carries the
same `(stack, size)` data. -/
structure ValuesIterMut (V : Type) : Type where
  base : NodeDFSIter V

/-- `LeafPairsIter`: newtype over `NodeDFSIter`. -/
structure LeafPairsIter (V : Type) : Type where
  base : NodeDFSIter V

/-- `LeafPairsIterMut`: newtype over the mutable DFS iterator. -/
structure LeafPairsIterMut (V : Type) : Type where
  base : NodeDFSIter V

/-- `IntoIter`: newtype over `NodeDFSIterOwned` (no size field at all). -/
structure IntoIter (V : Type) : Type where
  base : NodeDFSIterOwned V

/-- `Iterator::size_hint` as observed on `LabelsIter`: the `impl Iterator
for LabelsIter` in `src/iter.rs` implements only `next`, and `LabelsIter`
has no inherent `size_hint` and no `Deref` to the inner type, so a
`size_hint()` call resolves to the `Iterator` trait's default body
`(0, None)`. -/
def LabelsIter.iterSizeHint {V : Type} (_ : LabelsIter V) : Nat × Option Nat :=
  (0, none)

/-- `Iterator::size_hint` on `ValuesIter` (trait default; only `next` is
implemented). -/
def ValuesIter.iterSizeHint {V : Type} (_ : ValuesIter V) : Nat × Option Nat :=
  (0, none)

/-- `Iterator::size_hint` on `ValuesIterMut` (trait default). -/
def ValuesIterMut.iterSizeHint {V : Type} (_ : ValuesIterMut V) : Nat × Option Nat :=
  (0, none)

/-- `Iterator::size_hint` on `LeafPairsIter` (trait default). -/
def LeafPairsIter.iterSizeHint {V : Type} (_ : LeafPairsIter V) : Nat × Option Nat :=
  (0, none)

/-- `Iterator::size_hint` on `LeafPairsIterMut` (trait default). -/
def LeafPairsIterMut.iterSizeHint {V : Type} (_ : LeafPairsIterMut V) : Nat × Option Nat :=
  (0, none)

/-- `Iterator::size_hint` on `IntoIter` (trait default; the owned DFS
iterator does not even record a size). -/
def IntoIter.iterSizeHint {V : Type} (_ : IntoIter V) : Nat × Option Nat :=
  (0, none)

/-- `Trie::labels`. -/
def Trie.labels {V : Type} (t : Trie V) : LabelsIter V :=
  match t.root with
  | none => ⟨NodeDFSIter.dflt⟩
  | some r => ⟨NodeDFSIter.new r t.size⟩

/-- `Trie::values`. -/
def Trie.values {V : Type} (t : Trie V) : ValuesIter V :=
  match t.root with
  | none => ⟨NodeDFSIter.dflt⟩
  | some r => ⟨NodeDFSIter.new r t.size⟩

/-- `Trie::values_mut`. -/
def Trie.valuesMut {V : Type} (t : Trie V) : ValuesIterMut V :=
  match t.root with
  | none => ⟨NodeDFSIter.dflt⟩
  | some r => ⟨NodeDFSIter.new r t.size⟩

/-- `Trie::iter` (leaf pairs). -/
def Trie.iterPairs {V : Type} (t : Trie V) : LeafPairsIter V :=
  match t.root with
  | none => ⟨NodeDFSIter.dflt⟩
  | some r => ⟨NodeDFSIter.new r t.size⟩

/-- `Trie::iter_mut` (mutable leaf pairs). -/
def Trie.iterPairsMut {V : Type} (t : Trie V) : LeafPairsIterMut V :=
  match t.root with
  | none => ⟨NodeDFSIter.dflt⟩
  | some r => ⟨NodeDFSIter.new r t.size⟩

/-- `Trie::into_iter` (owning). -/
def Trie.intoIter {V : Type} (t : Trie V) : IntoIter V :=
  match t.root with
  | none => ⟨⟨[]⟩⟩
  | some r => ⟨⟨[r]⟩⟩

/-! ## Operation sequences -/

/-- One public mutating operation on the handle. -/
inductive Op (V : Type) : Type where
  | ins : List Nat → V → Op V
  | del : List Nat → Op V

/-- Apply a sequence of public mutating operations, threading the panic
layer: a sequence during which some operation panics yields `none`. -/
def applyOps {V : Type} : Trie V → List (Op V) → Option (Trie V)
  | t, [] => some t
  | t, Op.ins tok v :: rest =>
    match Trie.insert t tok v with
    | none => none
    | some (t', _) => applyOps t' rest
  | t, Op.del tok :: rest =>
    match Trie.remove t tok with
    | none => none
    | some (t', _) => applyOps t' rest

/-! ## Data-model invariants (spec §3) -/

/-- Decidable "no duplicate keys" for the edge map's key list. -/
def natsNodup : List Nat → Bool
  | [] => true
  | k :: rest => !(rest.contains k) && natsNodup rest

mutual

/-- Well-formedness of a subtree, ignoring the argument node's own label and
compression bound (those are the enclosing edge's business): value present
iff tag is `Key` (invariant 4), sibling edge keys distinct, and every child
well-formed as a child. -/
def subWF {V : Type} : Node V → Bool
  | ⟨_, v, t, e⟩ =>
    (v.isSome == decide (t = NodeType.Key)) && natsNodup (e.map Prod.fst) && edgesWF e

/-- Well-formedness of an edge list: each entry `(b, c)` requires the child's
label to be present, non-empty and starting with `b` (invariants 1–2), an
`Inner` child to have at least two outgoing edges (invariant 3), and the
child's subtree to be well-formed. -/
def edgesWF {V : Type} : List (Nat × Node V) → Bool
  | [] => true
  | (b, c) :: rest =>
    ((match c.label with
      | some (h :: _) => h == b
      | _ => false) &&
     (match c.tag with
      | NodeType.Inner => decide (2 ≤ c.edges.length)
      | NodeType.Key => true) &&
     subWF c) && edgesWF rest

end

/-- The per-entry conjunct of `edgesWF`, for stating lemmas. -/
def goodChild {V : Type} (b : Nat) (c : Node V) : Bool :=
  (match c.label with
   | some (h :: _) => h == b
   | _ => false) &&
  (match c.tag with
   | NodeType.Inner => decide (2 ≤ c.edges.length)
   | NodeType.Key => true) &&
  subWF c

/-- Well-formedness of the root node: no label, tag `Inner`, and a
well-formed subtree. -/
def rootWF {V : Type} (n : Node V) : Bool :=
  decide (n.label = none) && decide (n.tag = NodeType.Inner) && subWF n

/-- Structural well-formedness of a handle. -/
def trieWF {V : Type} (t : Trie V) : Bool :=
  match t.root with
  | none => true
  | some r => rootWF r

mutual

/-- Claim C5's first property, stated directly: every non-root node of the
subtree has a present, non-empty label (the argument node plays the root's
role and is exempt). -/
def nonRootLabelsOK {V : Type} : Node V → Bool
  | ⟨_, _, _, e⟩ => nonRootLabelsOKList e

/-- List form of `nonRootLabelsOK`. -/
def nonRootLabelsOKList {V : Type} : List (Nat × Node V) → Bool
  | [] => true
  | (_, c) :: rest =>
    (match c.label with
     | some (_ :: _) => true
     | _ => false) && nonRootLabelsOK c && nonRootLabelsOKList rest

end

mutual

/-- Claim C5's second property, stated directly: no non-root `Inner` node of
the subtree has fewer than two outgoing edges. -/
def compressionOK {V : Type} : Node V → Bool
  | ⟨_, _, _, e⟩ => compressionOKList e

/-- List form of `compressionOK`. -/
def compressionOKList {V : Type} : List (Nat × Node V) → Bool
  | [] => true
  | (_, c) :: rest =>
    (match c.tag with
     | NodeType.Inner => decide (2 ≤ c.edges.length)
     | NodeType.Key => true) && compressionOK c && compressionOKList rest

end

/-! ## Auxiliary relations for the proofs -/

/-- A descent path: `PathTo n tok p` states that starting from `n` and
consuming, at each step, the full label of an existing child (whose label is
non-empty and starts with its edge byte), one reaches `p` after consuming
exactly `tok`. -/
inductive PathTo {V : Type} : Node V → List Nat → Node V → Prop where
  | refl (n : Node V) : PathTo n [] n
  | step (n : Node V) (k : Nat) (c : Node V) (lab rest : List Nat) (p : Node V) :
      alistLookup k n.edges = some c → c.label = some lab → lab.head? = some k →
      PathTo c rest p → PathTo n (lab ++ rest) p

/-- The shape of a fold-traversal stack, written root-first (i.e. the
REVERSE of our head-as-top stack lists): one frame per visited node carrying
that node, its level, its recorded label field, and — for every frame except
the deepest — the backfilled edge byte leading to the next node.  `Chain m
lvl lab frames tok p` states that `frames` is such a well-formed chain
starting at node `m` (whose frame has level `lvl` and label field `lab`),
consuming `tok`, and ending at the deepest node `p`. -/
inductive Chain {V : Type} : Node V → Nat → Option (List Nat) →
    List (TraverseItem V) → List Nat → Node V → Prop where
  | nil (m : Node V) (lvl : Nat) (lab : Option (List Nat)) :
      Chain m lvl lab [⟨m, 0, lab, lvl⟩] [] m
  | cons (m : Node V) (lvl : Nat) (lab : Option (List Nat)) (k : Nat) (c : Node V)
      (clab : List Nat) (frames : List (TraverseItem V)) (tok : List Nat) (p : Node V) :
      alistLookup k m.edges = some c → c.label = some clab → clab.head? = some k →
      Chain c (lvl + 1) (some clab) frames tok p →
      Chain m lvl lab (⟨m, k, lab, lvl⟩ :: frames) (clab ++ tok) p

/-- The keep-segment of a descent, for the executor proofs: `ChainK m lvl
frames q` states that following, from node `m` at level `lvl`, the edge
recorded in each successive frame of `frames` (root-first) reaches `q`; each
frame carries its node and its level. -/
inductive ChainK {V : Type} : Node V → Nat → List (TraverseItem V) → Node V → Prop where
  | nil (m : Node V) (lvl : Nat) : ChainK m lvl [] m
  | cons (m : Node V) (lvl : Nat) (k : Nat) (c : Node V) (lab : Option (List Nat))
      (frames : List (TraverseItem V)) (q : Node V) :
      alistLookup k m.edges = some c → ChainK c (lvl + 1) frames q →
      ChainK m lvl (⟨m, k, lab, lvl⟩ :: frames) q

mutual

/-- The value-erased shape of a subtree: labels, tags and edge structure are
kept, values are replaced by `()`.  Used to state that an operation leaves
the whole tree structure (labels, children) unchanged. -/
def Node.shape {V : Type} : Node V → Node Unit
  | ⟨l, v, t, e⟩ => ⟨l, v.map (fun _ => ()), t, Node.shapeList e⟩

/-- `shape` mapped over an edge list. -/
def Node.shapeList {V : Type} : List (Nat × Node V) → List (Nat × Node Unit)
  | [] => []
  | (b, c) :: rest => (b, Node.shape c) :: Node.shapeList rest

end

/-- The `Keep` directives for a list of frames, in order. -/
def keepsOf {V : Type} (frames : List (TraverseItem V)) : List Playback :=
  frames.map (fun f => Playback.Keep (Cursor.Link f.level f.nextKey))

/-! # Theorems -/

/-! ## Association-list lemmas -/

theorem alistLookup_eq_none_iff {α : Type} {k : Nat} {l : List (Nat × α)} :
    alistLookup k l = none ↔ k ∉ l.map Prod.fst := by
  induction l with
  | nil => simp [alistLookup]
  | cons hd tl ih =>
    obtain ⟨k', v⟩ := hd
    by_cases h : k' = k
    · subst h
      simp [alistLookup]
    · simp only [alistLookup, if_neg h, List.map_cons, List.mem_cons]
      rw [ih]
      constructor
      · intro hn h'
        rcases h' with h' | h'
        · exact h h'.symm
        · exact hn h'
      · intro hn h'
        exact hn (Or.inr h')

theorem alistLookup_mem {α : Type} {k : Nat} {v : α} {l : List (Nat × α)}
    (h : alistLookup k l = some v) : (k, v) ∈ l := by
  induction l with
  | nil => simp [alistLookup] at h
  | cons hd tl ih =>
    obtain ⟨k', v'⟩ := hd
    by_cases hk : k' = k
    · subst hk
      simp [alistLookup] at h
      simp [h]
    · simp [alistLookup, hk] at h
      simp [ih h]

theorem alistLookup_of_mem {α : Type} {k : Nat} {v : α} {l : List (Nat × α)}
    (hm : (k, v) ∈ l) (hnd : (l.map Prod.fst).Nodup) : alistLookup k l = some v := by
  induction l with
  | nil => simp at hm
  | cons hd tl ih =>
    obtain ⟨k', v'⟩ := hd
    rw [List.map_cons, List.nodup_cons] at hnd
    rcases List.mem_cons.mp hm with h | h
    · cases h
      simp [alistLookup]
    · have hk : k' ≠ k := by
        intro he
        subst he
        exact hnd.1 (List.mem_map.mpr ⟨(k', v), h, rfl⟩)
      simp [alistLookup, hk]
      exact ih h hnd.2

theorem alistLookup_insert_self {α : Type} (k : Nat) (v : α) (l : List (Nat × α)) :
    alistLookup k (alistInsert k v l) = some v := by
  induction l with
  | nil => simp [alistInsert, alistLookup]
  | cons hd tl ih =>
    obtain ⟨k', v'⟩ := hd
    by_cases h : k' = k <;> simp [alistInsert, alistLookup, h, ih]

theorem alistLookup_insert_ne {α : Type} {k k' : Nat} (hne : k' ≠ k) (v : α)
    (l : List (Nat × α)) :
    alistLookup k' (alistInsert k v l) = alistLookup k' l := by
  have hne2 : ¬k = k' := fun h => hne h.symm
  induction l with
  | nil => simp [alistInsert, alistLookup, hne2]
  | cons hd tl ih =>
    obtain ⟨k'', v''⟩ := hd
    by_cases h : k'' = k
    · subst h
      simp [alistInsert, alistLookup, hne2]
    · simp only [alistInsert, if_neg h]
      by_cases h2 : k'' = k' <;> simp [alistLookup, h2, ih]

theorem alistInsert_of_lookup {α : Type} {k : Nat} {v : α} {l : List (Nat × α)}
    (h : alistLookup k l = some v) : alistInsert k v l = l := by
  induction l with
  | nil => simp [alistLookup] at h
  | cons hd tl ih =>
    obtain ⟨k', v'⟩ := hd
    by_cases hk : k' = k
    · subst hk
      simp [alistLookup] at h
      simp [alistInsert, h]
    · simp [alistLookup, hk] at h
      simp [alistInsert, hk, ih h]

theorem mem_alistInsert {α : Type} {b : Nat} {c v : α} {k : Nat} {l : List (Nat × α)}
    (h : (b, c) ∈ alistInsert k v l) : (b = k ∧ c = v) ∨ (b, c) ∈ l := by
  induction l with
  | nil =>
    simp [alistInsert] at h
    exact Or.inl ⟨h.1, h.2⟩
  | cons hd tl ih =>
    obtain ⟨k', v'⟩ := hd
    by_cases hk : k' = k
    · subst hk
      simp only [alistInsert, if_pos rfl] at h
      rcases List.mem_cons.mp h with h | h
      · cases h
        exact Or.inl ⟨rfl, rfl⟩
      · exact Or.inr (List.mem_cons_of_mem _ h)
    · simp only [alistInsert, if_neg hk] at h
      rcases List.mem_cons.mp h with h | h
      · cases h
        exact Or.inr (List.mem_cons_self _ _)
      · rcases ih h with h' | h'
        · exact Or.inl h'
        · exact Or.inr (List.mem_cons_of_mem _ h')

theorem mem_alistRemove {α : Type} {b : Nat} {c : α} {k : Nat} {l : List (Nat × α)}
    (h : (b, c) ∈ alistRemove k l) : (b, c) ∈ l := by
  induction l with
  | nil => simp [alistRemove] at h
  | cons hd tl ih =>
    obtain ⟨k', v'⟩ := hd
    by_cases hk : k' = k
    · subst hk
      simp only [alistRemove, if_pos rfl] at h
      exact List.mem_cons_of_mem _ h
    · simp only [alistRemove, if_neg hk] at h
      rcases List.mem_cons.mp h with h | h
      · cases h
        exact List.mem_cons_self _ _
      · exact List.mem_cons_of_mem _ (ih h)

theorem alistInsert_map_fst_of_mem {α : Type} {k : Nat} (v : α) {l : List (Nat × α)}
    (h : k ∈ l.map Prod.fst) : (alistInsert k v l).map Prod.fst = l.map Prod.fst := by
  induction l with
  | nil => simp at h
  | cons hd tl ih =>
    obtain ⟨k', v'⟩ := hd
    by_cases hk : k' = k
    · subst hk; simp [alistInsert]
    · rw [List.map_cons] at h
      rcases List.mem_cons.mp h with h | h
      · exact absurd h.symm hk
      · simp [alistInsert, hk, ih h]

theorem alistInsert_map_fst_of_not_mem {α : Type} {k : Nat} (v : α) {l : List (Nat × α)}
    (h : k ∉ l.map Prod.fst) :
    (alistInsert k v l).map Prod.fst = l.map Prod.fst ++ [k] := by
  induction l with
  | nil => simp [alistInsert]
  | cons hd tl ih =>
    obtain ⟨k', v'⟩ := hd
    rw [List.map_cons] at h
    have h1 : k' ≠ k := fun he => h (he ▸ List.mem_cons_self _ _)
    have h2 : k ∉ tl.map Prod.fst := fun hm => h (List.mem_cons_of_mem _ hm)
    simp [alistInsert, h1, ih h2]

theorem alistRemove_map_fst_sublist {α : Type} (k : Nat) (l : List (Nat × α)) :
    ((alistRemove k l).map Prod.fst).Sublist (l.map Prod.fst) := by
  induction l with
  | nil => simp [alistRemove]
  | cons hd tl ih =>
    obtain ⟨k', v'⟩ := hd
    by_cases hk : k' = k
    · subst hk
      simp only [alistRemove, if_pos rfl, List.map_cons]
      exact List.sublist_cons_self _ _
    · simp only [alistRemove, if_neg hk, List.map_cons]
      exact List.Sublist.cons₂ _ ih

theorem alistRemove_length_of_mem {α : Type} {k : Nat} {l : List (Nat × α)}
    (h : k ∈ l.map Prod.fst) : (alistRemove k l).length + 1 = l.length := by
  induction l with
  | nil => simp at h
  | cons hd tl ih =>
    obtain ⟨k', v'⟩ := hd
    by_cases hk : k' = k
    · subst hk; simp [alistRemove]
    · rw [List.map_cons] at h
      rcases List.mem_cons.mp h with h | h
      · exact absurd h.symm hk
      · simp [alistRemove, hk, ih h]

theorem alistInsert_length_of_not_mem {α : Type} {k : Nat} (v : α) {l : List (Nat × α)}
    (h : k ∉ l.map Prod.fst) : (alistInsert k v l).length = l.length + 1 := by
  have h1 : ((alistInsert k v l).map Prod.fst).length = (l.map Prod.fst ++ [k]).length := by
    rw [alistInsert_map_fst_of_not_mem v h]
  simpa using h1

theorem alistInsert_length_of_mem {α : Type} {k : Nat} (v : α) {l : List (Nat × α)}
    (h : k ∈ l.map Prod.fst) : (alistInsert k v l).length = l.length := by
  have h1 : ((alistInsert k v l).map Prod.fst).length = (l.map Prod.fst).length := by
    rw [alistInsert_map_fst_of_mem v h]
  simpa using h1

theorem alistLookup_remove_ne {α : Type} {k k' : Nat} (hne : k' ≠ k)
    (l : List (Nat × α)) :
    alistLookup k' (alistRemove k l) = alistLookup k' l := by
  have hne2 : ¬k = k' := fun h => hne h.symm
  induction l with
  | nil => simp [alistRemove]
  | cons hd tl ih =>
    obtain ⟨k'', v''⟩ := hd
    by_cases h : k'' = k
    · subst h
      simp [alistRemove, alistLookup, hne2, ih]
    · simp only [alistRemove, if_neg h]
      by_cases h2 : k'' = k' <;> simp [alistLookup, h2, ih]

theorem alistLookup_remove_self {α : Type} {k : Nat} {l : List (Nat × α)}
    (hnd : (l.map Prod.fst).Nodup) : alistLookup k (alistRemove k l) = none := by
  induction l with
  | nil => simp [alistRemove, alistLookup]
  | cons hd tl ih =>
    obtain ⟨k', v'⟩ := hd
    rw [List.map_cons, List.nodup_cons] at hnd
    by_cases hk : k' = k
    · subst hk
      simp only [alistRemove, if_pos rfl]
      rw [alistLookup_eq_none_iff]
      exact hnd.1
    · simp [alistRemove, alistLookup, hk]
      exact ih hnd.2

/-! ## `natsNodup` -/

theorem natsNodup_iff {l : List Nat} : natsNodup l = true ↔ l.Nodup := by
  induction l with
  | nil => simp [natsNodup]
  | cons k rest ih =>
    simp [natsNodup, ih]

/-! ## Well-formedness unfolding -/

theorem subWF_iff {V : Type} {n : Node V} :
    subWF n = true ↔
      ((n.value.isSome = true) ↔ n.tag = NodeType.Key) ∧
      (n.edges.map Prod.fst).Nodup ∧ edgesWF n.edges = true := by
  obtain ⟨l, v, t, e⟩ := n
  simp only [subWF, Bool.and_eq_true, beq_iff_eq, natsNodup_iff, Node.label_mk,
    Node.value_mk, Node.tag_mk, Node.edges_mk]
  rw [Bool.eq_iff_iff]
  simp only [decide_eq_true_eq]
  exact and_assoc

theorem edgesWF_cons {V : Type} {b : Nat} {c : Node V} {rest : List (Nat × Node V)} :
    edgesWF ((b, c) :: rest) = (goodChild b c && edgesWF rest) := rfl

theorem edgesWF_iff_forall {V : Type} {e : List (Nat × Node V)} :
    edgesWF e = true ↔ ∀ b c, (b, c) ∈ e → goodChild b c = true := by
  induction e with
  | nil => simp [edgesWF]
  | cons hd tl ih =>
    obtain ⟨b, c⟩ := hd
    rw [edgesWF_cons]
    simp only [Bool.and_eq_true, ih]
    constructor
    · rintro ⟨h1, h2⟩ b' c' hm
      rcases List.mem_cons.mp hm with h | h
      · cases h
        exact h1
      · exact h2 b' c' h
    · intro h
      exact ⟨h b c (List.mem_cons_self _ _),
        fun b' c' hm => h b' c' (List.mem_cons_of_mem _ hm)⟩

theorem goodChild_iff {V : Type} {b : Nat} {c : Node V} :
    goodChild b c = true ↔
      (∃ l, c.label = some (b :: l)) ∧
      (c.tag = NodeType.Inner → 2 ≤ c.edges.length) ∧ subWF c = true := by
  obtain ⟨lab, v, t, e⟩ := c
  cases t with
  | Key =>
    cases lab with
    | none => simp [goodChild, subWF]
    | some ll =>
      cases ll with
      | nil => simp [goodChild]
      | cons h0 lt =>
        simp only [goodChild, Node.label_mk, Node.tag_mk, Node.edges_mk,
          Bool.and_eq_true, beq_iff_eq]
        constructor
        · rintro ⟨⟨h1, -⟩, h3⟩
          subst h1
          exact ⟨⟨lt, rfl⟩, by simp, h3⟩
        · rintro ⟨⟨l', hl'⟩, -, h3⟩
          injection hl' with hl'
          injection hl' with hh ht
          subst hh
          exact ⟨⟨rfl, trivial⟩, h3⟩
  | Inner =>
    cases lab with
    | none => simp [goodChild, subWF]
    | some ll =>
      cases ll with
      | nil => simp [goodChild]
      | cons h0 lt =>
        simp only [goodChild, Node.label_mk, Node.tag_mk, Node.edges_mk,
          Bool.and_eq_true, beq_iff_eq, decide_eq_true_eq]
        constructor
        · rintro ⟨⟨h1, h2⟩, h3⟩
          subst h1
          exact ⟨⟨lt, rfl⟩, fun _ => h2, h3⟩
        · rintro ⟨⟨l', hl'⟩, h2, h3⟩
          injection hl' with hl'
          injection hl' with hh ht
          subst hh
          exact ⟨⟨rfl, h2 trivial⟩, h3⟩

theorem rootWF_iff {V : Type} {n : Node V} :
    rootWF n = true ↔ n.label = none ∧ n.tag = NodeType.Inner ∧ subWF n = true := by
  unfold rootWF
  simp [and_assoc]

/-! ## `commonPrefixLen` -/

theorem commonPrefixLen_nil_left (b : List Nat) : commonPrefixLen [] b = 0 := by
  cases b <;> rfl

theorem commonPrefixLen_nil_right (a : List Nat) : commonPrefixLen a [] = 0 := by
  cases a <;> rfl

theorem commonPrefixLen_append (a b c : List Nat) :
    commonPrefixLen (a ++ b) (a ++ c) = a.length + commonPrefixLen b c := by
  induction a with
  | nil => simp
  | cons x xs ih => simp [commonPrefixLen, ih]; omega

theorem commonPrefixLen_le_left (a b : List Nat) : commonPrefixLen a b ≤ a.length := by
  induction a generalizing b with
  | nil => simp [commonPrefixLen_nil_left]
  | cons x xs ih =>
    cases b with
    | nil => simp [commonPrefixLen_nil_right]
    | cons y ys =>
      by_cases h : x = y <;> simp [commonPrefixLen, h]
      exact ih ys

theorem commonPrefixLen_le_right (a b : List Nat) : commonPrefixLen a b ≤ b.length := by
  induction a generalizing b with
  | nil => simp [commonPrefixLen_nil_left]
  | cons x xs ih =>
    cases b with
    | nil => simp [commonPrefixLen_nil_right]
    | cons y ys =>
      by_cases h : x = y <;> simp [commonPrefixLen, h]
      exact ih ys

theorem commonPrefixLen_take_eq (a b : List Nat) :
    a.take (commonPrefixLen a b) = b.take (commonPrefixLen a b) := by
  induction a generalizing b with
  | nil => simp [commonPrefixLen_nil_left]
  | cons x xs ih =>
    cases b with
    | nil => simp [commonPrefixLen_nil_right]
    | cons y ys =>
      by_cases h : x = y <;> simp [commonPrefixLen, h]
      exact ih ys

theorem commonPrefixLen_diverge {a b : List Nat} {x y : Nat}
    (hx : (a.drop (commonPrefixLen a b)).head? = some x)
    (hy : (b.drop (commonPrefixLen a b)).head? = some y) : x ≠ y := by
  induction a generalizing b with
  | nil => simp [commonPrefixLen_nil_left] at hx
  | cons x' xs ih =>
    cases b with
    | nil => simp [commonPrefixLen_nil_right] at hy
    | cons y' ys =>
      by_cases h : x' = y'
      · simp only [commonPrefixLen, if_pos h, List.drop_succ_cons] at hx hy
        exact ih hx hy
      · simp only [commonPrefixLen, if_neg h, List.drop_zero, List.head?_cons,
          Option.some.injEq] at hx hy
        subst hx; subst hy
        exact h

theorem commonPrefixLen_pos_of_head {x : Nat} {a b : List Nat}
    (ha : a.head? = some x) (hb : b.head? = some x) :
    1 ≤ commonPrefixLen a b := by
  cases a with
  | nil => simp at ha
  | cons a0 as =>
    cases b with
    | nil => simp at hb
    | cons b0 bs =>
      simp at ha hb
      subst ha; subst hb
      simp [commonPrefixLen]

/-! ## `SuffixType.new` case analysis -/

theorem SuffixType.new_eq_empty_iff {e t : List Nat} :
    SuffixType.new e t = SuffixType.Empty ↔ e = [] ∧ t = [] := by
  cases e <;> cases t <;> simp [SuffixType.new]

theorem SuffixType.new_eq_onlyToken_iff {e t s : List Nat} :
    SuffixType.new e t = SuffixType.OnlyToken s ↔ e = [] ∧ t = s ∧ s ≠ [] := by
  constructor
  · intro h
    cases e with
    | cons h1 t1 => cases t <;> simp [SuffixType.new] at h
    | nil =>
      cases t with
      | nil => simp [SuffixType.new] at h
      | cons h2 t2 =>
        simp [SuffixType.new] at h
        subst h
        exact ⟨rfl, rfl, by simp⟩
  · rintro ⟨rfl, rfl, hs⟩
    cases t with
    | nil => exact absurd rfl hs
    | cons h2 t2 => rfl

theorem SuffixType.new_eq_onlyEdge_iff {e t s : List Nat} :
    SuffixType.new e t = SuffixType.OnlyEdge s ↔ e = s ∧ t = [] ∧ s ≠ [] := by
  constructor
  · intro h
    cases e with
    | nil => cases t <;> simp [SuffixType.new] at h
    | cons h1 t1 =>
      cases t with
      | cons h2 t2 => simp [SuffixType.new] at h
      | nil =>
        simp [SuffixType.new] at h
        subst h
        exact ⟨rfl, rfl, by simp⟩
  · rintro ⟨rfl, rfl, hs⟩
    cases e with
    | nil => exact absurd rfl hs
    | cons h1 t1 => rfl

theorem SuffixType.new_eq_both_iff {e t s1 s2 : List Nat} :
    SuffixType.new e t = SuffixType.BothEdgeToken s1 s2 ↔
      e = s1 ∧ t = s2 ∧ s1 ≠ [] ∧ s2 ≠ [] := by
  constructor
  · intro h
    cases e with
    | nil => cases t <;> simp [SuffixType.new] at h
    | cons h1 t1 =>
      cases t with
      | nil => simp [SuffixType.new] at h
      | cons h2 t2 =>
        simp [SuffixType.new] at h
        obtain ⟨he, ht⟩ := h
        subst he; subst ht
        exact ⟨rfl, rfl, by simp, by simp⟩
  · rintro ⟨rfl, rfl, h1, h2⟩
    cases e with
    | nil => exact absurd rfl h1
    | cons x xs =>
      cases t with
      | nil => exact absurd rfl h2
      | cons y ys => rfl

/-! ## `traverseMatch` characterization -/

theorem traverseMatch_nil {V : Type} (n : Node V) : traverseMatch n [] = none := rfl

/-- Full characterization of a successful `traverse_match`. -/
theorem traverseMatch_some_some {V : Type} {n : Node V} {tok : List Nat}
    {km : KeyMatch V} (h : traverseMatch n tok = some (some km)) :
    ∃ t0 ts lab, tok = t0 :: ts ∧ km.edgeKey = t0 ∧
      alistLookup t0 n.edges = some km.next ∧ km.next.label = some lab ∧
      km.common = lab.take (commonPrefixLen tok lab) ∧ km.common ≠ [] ∧
      km.leftover = SuffixType.new (lab.drop (commonPrefixLen tok lab))
        (tok.drop (commonPrefixLen tok lab)) := by
  match tok with
  | [] => exact absurd h (by simp [traverseMatch])
  | t0 :: ts =>
    refine ⟨t0, ts, ?_⟩
    simp only [traverseMatch] at h
    split at h
    · simp at h
    · rename_i nextNode hl
      split at h
      · simp at h
      · rename_i lab hlab
        split at h
        · simp at h
        · rename_i hc
          simp only [Option.some.injEq] at h
          subst h
          exact ⟨lab, rfl, rfl, hl, hlab, rfl, hc, rfl⟩

theorem traverseMatch_some_none {V : Type} {n : Node V} {t0 : Nat} {ts : List Nat}
    (h : traverseMatch n (t0 :: ts) = some none) :
    alistLookup t0 n.edges = none ∨
      ∃ c lab, alistLookup t0 n.edges = some c ∧ c.label = some lab ∧
        lab.take (commonPrefixLen (t0 :: ts) lab) = [] := by
  simp only [traverseMatch] at h
  split at h
  · rename_i hl
    exact Or.inl hl
  · rename_i nextNode hl
    split at h
    · simp at h
    · rename_i lab hlab
      split at h
      · rename_i hc
        exact Or.inr ⟨nextNode, lab, hl, hlab, hc⟩
      · simp at h

theorem traverseMatch_panic {V : Type} {n : Node V} {tok : List Nat}
    (h : traverseMatch n tok = none) :
    tok = [] ∨ ∃ t0 ts c, tok = t0 :: ts ∧ alistLookup t0 n.edges = some c ∧
      c.label = none := by
  match tok with
  | [] => exact Or.inl rfl
  | t0 :: ts =>
    refine Or.inr ⟨t0, ts, ?_⟩
    simp only [traverseMatch] at h
    split at h
    · simp at h
    · rename_i nextNode hl
      split at h
      · rename_i hlab
        exact ⟨nextNode, rfl, hl, hlab⟩
      · split at h <;> simp at h

/-- Under well-formedness a `traverse_match` on a non-empty token never
panics. -/
theorem traverseMatch_no_panic {V : Type} {n : Node V} {t0 : Nat} {ts : List Nat}
    (hwf : subWF n = true) : traverseMatch n (t0 :: ts) ≠ none := by
  intro h
  rcases traverseMatch_panic h with h | ⟨t0', ts', c, he, hl, hlab⟩
  · simp at h
  · injection he with he1 he2
    subst he1
    have hm := alistLookup_mem hl
    have hgc := (edgesWF_iff_forall.mp (subWF_iff.mp hwf).2.2) _ _ hm
    obtain ⟨⟨l', hl'⟩, -, -⟩ := goodChild_iff.mp hgc
    rw [hl'] at hlab
    simp at hlab

/-- Under well-formedness, a `some none` outcome means the edge was simply
absent (the empty-common case cannot happen because a present child's label
starts with the probed byte). -/
theorem traverseMatch_some_none_wf {V : Type} {n : Node V} {t0 : Nat} {ts : List Nat}
    (hwf : subWF n = true) (h : traverseMatch n (t0 :: ts) = some none) :
    alistLookup t0 n.edges = none := by
  rcases traverseMatch_some_none h with h' | ⟨c, lab, hl, hlab, hc⟩
  · exact h'
  · exfalso
    have hm := alistLookup_mem hl
    have hgc := (edgesWF_iff_forall.mp (subWF_iff.mp hwf).2.2) _ _ hm
    obtain ⟨⟨l', hl'⟩, -, -⟩ := goodChild_iff.mp hgc
    rw [hl'] at hlab
    injection hlab with hlab
    subst hlab
    have hpos : 1 ≤ commonPrefixLen (t0 :: ts) (t0 :: l') :=
      commonPrefixLen_pos_of_head rfl rfl
    rw [List.take_eq_nil_iff] at hc
    rcases hc with hc | hc
    · omega
    · simp at hc

/-- Leftover decompositions of a successful match: the matched child's label
and the token, reassembled from the common part and the leftovers. -/
theorem traverseMatch_empty_decomp {V : Type} {n : Node V} {tok : List Nat}
    {km : KeyMatch V} (h : traverseMatch n tok = some (some km))
    (hlo : km.leftover = SuffixType.Empty) :
    tok ≠ [] ∧ km.edgeKey ∈ tok.head? ∧ alistLookup km.edgeKey n.edges = some km.next ∧
      km.next.label = some tok ∧ km.common = tok := by
  obtain ⟨t0, ts, lab, htok, hek, hl, hlab, hcom, hcne, hleft⟩ := traverseMatch_some_some h
  rw [hlo] at hleft
  obtain ⟨he, ht⟩ := SuffixType.new_eq_empty_iff.mp hleft.symm
  have hle : lab.length ≤ commonPrefixLen tok lab := by
    have := List.drop_eq_nil_iff.mp he
    omega
  have hte : tok.length ≤ commonPrefixLen tok lab := by
    have := List.drop_eq_nil_iff.mp ht
    omega
  have h1 : commonPrefixLen tok lab = lab.length := by
    have := commonPrefixLen_le_right tok lab
    omega
  have h2 : commonPrefixLen tok lab = tok.length := by
    have := commonPrefixLen_le_left tok lab
    omega
  have hlabtok : lab = tok := by
    have hteq := commonPrefixLen_take_eq tok lab
    rw [h1] at hteq
    rw [List.take_length] at hteq
    have hlen : lab.length = tok.length := by omega
    rw [hlen, List.take_length] at hteq
    exact hteq.symm
  subst hlabtok
  refine ⟨by simp [htok], by simp [htok, hek], hek ▸ hl, hlab, ?_⟩
  rw [hcom, h1, List.take_length]

theorem traverseMatch_onlyToken_decomp {V : Type} {n : Node V} {tok : List Nat}
    {km : KeyMatch V} {sufx : List Nat} (h : traverseMatch n tok = some (some km))
    (hlo : km.leftover = SuffixType.OnlyToken sufx) :
    km.edgeKey ∈ tok.head? ∧ alistLookup km.edgeKey n.edges = some km.next ∧
      km.next.label = some km.common ∧ tok = km.common ++ sufx ∧ sufx ≠ [] ∧
      km.common ≠ [] := by
  obtain ⟨t0, ts, lab, htok, hek, hl, hlab, hcom, hcne, hleft⟩ := traverseMatch_some_some h
  rw [hlo] at hleft
  obtain ⟨he, ht, hs⟩ := SuffixType.new_eq_onlyToken_iff.mp hleft.symm
  have hle : lab.length ≤ commonPrefixLen tok lab := by
    have := List.drop_eq_nil_iff.mp he
    omega
  have h1 : commonPrefixLen tok lab = lab.length := by
    have := commonPrefixLen_le_right tok lab
    omega
  have hlabcom : km.common = lab := by
    rw [hcom, h1, List.take_length]
  refine ⟨by simp [htok, hek], hek ▸ hl, by rw [hlabcom]; exact hlab, ?_, hs, hcne⟩
  have h3 : tok.take (commonPrefixLen tok lab) = lab := by
    rw [commonPrefixLen_take_eq tok lab, h1, List.take_length]
  calc tok = tok.take (commonPrefixLen tok lab) ++ tok.drop (commonPrefixLen tok lab) :=
        (List.take_append_drop _ _).symm
    _ = km.common ++ sufx := by rw [h3, ht, ← hlabcom]

theorem traverseMatch_onlyEdge_decomp {V : Type} {n : Node V} {tok : List Nat}
    {km : KeyMatch V} {sufx : List Nat} (h : traverseMatch n tok = some (some km))
    (hlo : km.leftover = SuffixType.OnlyEdge sufx) :
    km.edgeKey ∈ tok.head? ∧ alistLookup km.edgeKey n.edges = some km.next ∧
      km.next.label = some (tok ++ sufx) ∧ km.common = tok ∧ sufx ≠ [] := by
  obtain ⟨t0, ts, lab, htok, hek, hl, hlab, hcom, hcne, hleft⟩ := traverseMatch_some_some h
  rw [hlo] at hleft
  obtain ⟨he, ht, hs⟩ := SuffixType.new_eq_onlyEdge_iff.mp hleft.symm
  have hte : tok.length ≤ commonPrefixLen tok lab := by
    have := List.drop_eq_nil_iff.mp ht
    omega
  have h2 : commonPrefixLen tok lab = tok.length := by
    have := commonPrefixLen_le_left tok lab
    omega
  have hcomtok : km.common = tok := by
    rw [hcom, ← commonPrefixLen_take_eq tok lab, h2, List.take_length]
  refine ⟨by simp [htok, hek], hek ▸ hl, ?_, hcomtok, hs⟩
  rw [hlab]
  congr 1
  have h4 : tok = lab.take (commonPrefixLen tok lab) := hcomtok ▸ hcom
  calc lab = lab.take (commonPrefixLen tok lab) ++ lab.drop (commonPrefixLen tok lab) :=
        (List.take_append_drop _ _).symm
    _ = tok ++ sufx := by rw [← h4, he]

theorem traverseMatch_both_decomp {V : Type} {n : Node V} {tok : List Nat}
    {km : KeyMatch V} {se st : List Nat} (h : traverseMatch n tok = some (some km))
    (hlo : km.leftover = SuffixType.BothEdgeToken se st) :
    km.edgeKey ∈ tok.head? ∧ alistLookup km.edgeKey n.edges = some km.next ∧
      km.next.label = some (km.common ++ se) ∧ tok = km.common ++ st ∧
      se ≠ [] ∧ st ≠ [] ∧ km.common ≠ [] ∧
      ∀ x y, se.head? = some x → st.head? = some y → x ≠ y := by
  obtain ⟨t0, ts, lab, htok, hek, hl, hlab, hcom, hcne, hleft⟩ := traverseMatch_some_some h
  rw [hlo] at hleft
  obtain ⟨he, ht, hse, hst⟩ := SuffixType.new_eq_both_iff.mp hleft.symm
  have htake : tok.take (commonPrefixLen tok lab) = km.common := by
    rw [hcom, commonPrefixLen_take_eq tok lab]
  refine ⟨by simp [htok, hek], hek ▸ hl, ?_, ?_, hse, hst, hcne, ?_⟩
  · rw [hlab]
    congr 1
    calc lab = lab.take (commonPrefixLen tok lab) ++ lab.drop (commonPrefixLen tok lab) :=
          (List.take_append_drop _ _).symm
      _ = km.common ++ se := by rw [← hcom, he]
  · calc tok = tok.take (commonPrefixLen tok lab) ++ tok.drop (commonPrefixLen tok lab) :=
          (List.take_append_drop _ _).symm
      _ = km.common ++ st := by rw [htake, ht]
  · intro x y hx hy
    rw [← he] at hx
    rw [← ht] at hy
    exact fun hxy => commonPrefixLen_diverge (a := tok) (b := lab) hy hx (hxy ▸ rfl)

/-- Termination facts: the token leftovers of a match are strictly shorter
than the token. -/
theorem traverseMatch_onlyToken_shorter {V : Type} {n : Node V} {tok : List Nat}
    {km : KeyMatch V} {sufx : List Nat} (h : traverseMatch n tok = some (some km))
    (hlo : km.leftover = SuffixType.OnlyToken sufx) : sufx.length < tok.length := by
  obtain ⟨-, -, -, htok, -, hcne⟩ := traverseMatch_onlyToken_decomp h hlo
  rw [htok]
  have : 0 < km.common.length := List.length_pos.mpr hcne
  simp
  omega

theorem traverseMatch_both_shorter {V : Type} {n : Node V} {tok : List Nat}
    {km : KeyMatch V} {se st : List Nat} (h : traverseMatch n tok = some (some km))
    (hlo : km.leftover = SuffixType.BothEdgeToken se st) : st.length < tok.length := by
  obtain ⟨-, -, -, htok, -, -, hcne, -⟩ := traverseMatch_both_decomp h hlo
  rw [htok]
  have : 0 < km.common.length := List.length_pos.mpr hcne
  simp
  omega

/-! ## `traverse` specifications -/

theorem traverseFoldHelper_push {V : Type} {node : Node V} {lab : List Nat} {c0 : Nat}
    (level : Nat) (top : TraverseItem V) (rest : List (TraverseItem V))
    {ty : TraverseType} (hty : ty = TraverseType.Fold ∨ ty = TraverseType.FoldOrPart)
    (hlab : node.label = some lab) (hhd : lab.head? = some c0) :
    traverseFoldHelper node level (top :: rest) ty =
      some (⟨node, 0, node.label, level⟩ :: { top with nextKey := c0 } :: rest) := by
  rcases hty with hty | hty <;> subst hty <;>
    simp [traverseFoldHelper, hlab, hhd]

theorem traverseFoldHelper_search {V : Type} (node : Node V) (level : Nat)
    (stack : List (TraverseItem V)) :
    traverseFoldHelper node level stack TraverseType.Search = some stack := rfl

/-- Specification of the fold traversal loop: a successful `Fold` run
extends the incoming stack with a chain of frames, one per matched node,
whose reverse is a `Chain` for the consumed token. -/
theorem traverseGo_fold_spec {V : Type} :
    ∀ (fuel : Nat) (cur : Node V) (nav : List Nat) (pre : List (TraverseItem V))
      (flab : Option (List Nat)) (lvl : Nat) (out : TraverseLoopOut V),
      nav ≠ [] →
      traverseGo fuel cur nav TraverseType.Fold (⟨cur, 0, flab, lvl⟩ :: pre) lvl
        = some (some out) →
      ∃ tail p, out.stack = tail ++ pre ∧ Chain cur lvl flab tail.reverse nav p ∧
        out.current = p ∧ out.partTerminal = none := by
  intro fuel
  induction fuel with
  | zero => intro cur nav pre flab lvl out hnav h; simp [traverseGo] at h
  | succ fuel ih =>
    intro cur nav pre flab lvl out hnav h
    match hm : traverseMatch cur nav with
    | none =>
      simp only [traverseGo, hm] at h
      exact absurd h (by simp)
    | some none =>
      simp only [traverseGo, hm] at h
      exact absurd h (by simp)
    | some (some km) =>
      match hlo : km.leftover with
      | SuffixType.Empty =>
        obtain ⟨hne, hhd, hl, hlab, hcom⟩ := traverseMatch_empty_decomp hm hlo
        rw [Option.mem_def] at hhd
        have hhd2 : nav.head? = some km.edgeKey := hhd
        simp only [traverseGo, hm, hlo,
          traverseFoldHelper_push (lvl + 1) (⟨cur, 0, flab, lvl⟩ : TraverseItem V) pre
            (Or.inl rfl) hlab hhd2, Option.some.injEq] at h
        subst h
        refine ⟨[⟨km.next, 0, km.next.label, lvl + 1⟩,
          ⟨cur, km.edgeKey, flab, lvl⟩], km.next, by simp, ?_, rfl, rfl⟩
        simp only [List.reverse_cons, List.reverse_nil, List.nil_append,
          List.cons_append, List.singleton_append]
        rw [hlab]
        have hchain := Chain.cons cur lvl flab km.edgeKey km.next nav
          [⟨km.next, 0, some nav, lvl + 1⟩] [] km.next hl hlab hhd2
          (Chain.nil km.next (lvl + 1) (some nav))
        simpa using hchain
      | SuffixType.OnlyToken sufx =>
        obtain ⟨hhd, hl, hlab, hcat, hsne, hcne⟩ := traverseMatch_onlyToken_decomp hm hlo
        rw [Option.mem_def] at hhd
        have hhd2 : km.common.head? = some km.edgeKey := by
          rw [hcat] at hhd
          cases hc : km.common with
          | nil => exact absurd hc hcne
          | cons a b =>
            rw [hc] at hhd
            simpa using hhd
        simp only [traverseGo, hm, hlo,
          traverseFoldHelper_push (lvl + 1) (⟨cur, 0, flab, lvl⟩ : TraverseItem V) pre
            (Or.inl rfl) hlab hhd2] at h
        rw [hlab] at h
        obtain ⟨tail', p, hst, hchain, hcur, hpt⟩ :=
          ih km.next sufx (⟨cur, km.edgeKey, flab, lvl⟩ :: pre)
            (some km.common) (lvl + 1) out hsne h
        refine ⟨tail' ++ [⟨cur, km.edgeKey, flab, lvl⟩], p, by
          rw [hst]; simp, ?_, hcur, hpt⟩
        rw [List.reverse_append]
        simp only [List.reverse_cons, List.reverse_nil, List.nil_append,
          List.singleton_append]
        rw [hcat]
        exact Chain.cons cur lvl flab km.edgeKey km.next km.common
          tail'.reverse sufx p hl hlab hhd2 hchain
      | SuffixType.OnlyEdge sufx =>
        simp only [traverseGo, hm, hlo] at h
        exact absurd h (by simp)
      | SuffixType.BothEdgeToken se st =>
        simp only [traverseGo, hm, hlo] at h
        exact absurd h (by simp)

theorem goodChild_of_lookup {V : Type} {n : Node V} {k : Nat} {c : Node V}
    (hwf : subWF n = true) (hl : alistLookup k n.edges = some c) :
    goodChild k c = true :=
  (edgesWF_iff_forall.mp (subWF_iff.mp hwf).2.2) _ _ (alistLookup_mem hl)

theorem subWF_of_lookup {V : Type} {n : Node V} {k : Nat} {c : Node V}
    (hwf : subWF n = true) (hl : alistLookup k n.edges = some c) :
    subWF c = true :=
  (goodChild_iff.mp (goodChild_of_lookup hwf hl)).2.2

theorem traverseFoldHelper_no_panic {V : Type} {node : Node V} (level : Nat)
    (stack : List (TraverseItem V)) (ty : TraverseType)
    (hlab : node.label = none ∨ ∃ lab, node.label = some lab ∧ lab ≠ []) :
    traverseFoldHelper node level stack ty ≠ none := by
  cases ty <;> simp only [traverseFoldHelper]
  · simp
  all_goals {
    rcases hlab with hlab | ⟨lab, hlab, hne⟩
    · simp [hlab]
    · cases lab with
      | nil => exact absurd rfl hne
      | cons a b =>
        cases stack <;> simp [hlab]
  }

/-- Under well-formedness, a traversal with a non-empty token and enough fuel
never panics, in any mode. -/
theorem traverseGo_no_panic {V : Type} :
    ∀ (fuel : Nat) (cur : Node V) (nav : List Nat) (ty : TraverseType)
      (stack : List (TraverseItem V)) (lvl : Nat),
      subWF cur = true → nav ≠ [] → nav.length < fuel →
      traverseGo fuel cur nav ty stack lvl ≠ none := by
  intro fuel
  induction fuel with
  | zero =>
    intro cur nav ty stack lvl hwf hnav hlen
    omega
  | succ fuel ih =>
    intro cur nav ty stack lvl hwf hnav hlen h
    obtain ⟨t0, ts, htok⟩ : ∃ t0 ts, nav = t0 :: ts := by
      cases nav with
      | nil => exact absurd rfl hnav
      | cons a b => exact ⟨a, b, rfl⟩
    match hm : traverseMatch cur nav with
    | none => exact traverseMatch_no_panic hwf (htok ▸ hm)
    | some none =>
      simp only [traverseGo, hm] at h
      cases ty <;> simp at h
      split at h <;> simp at h
    | some (some km) =>
      have hchild : subWF km.next = true := by
        obtain ⟨_, _, _, _, _, hl, _⟩ := traverseMatch_some_some hm
        exact subWF_of_lookup hwf hl
      have hlabfact : km.next.label = none ∨
          ∃ lab, km.next.label = some lab ∧ lab ≠ [] := by
        obtain ⟨_, _, lab, _, _, _, hlab, hcom, hcne, _⟩ := traverseMatch_some_some hm
        refine Or.inr ⟨lab, hlab, ?_⟩
        intro hle
        subst hle
        simp at hcom
        exact hcne hcom
      match hlo : km.leftover with
      | SuffixType.Empty =>
        simp only [traverseGo, hm, hlo] at h
        match hfh : traverseFoldHelper km.next (lvl + 1) stack ty with
        | none => exact traverseFoldHelper_no_panic _ _ _ hlabfact hfh
        | some stack' => rw [hfh] at h; simp at h
      | SuffixType.OnlyToken sufx =>
        have hshort := traverseMatch_onlyToken_shorter hm hlo
        have hsne : sufx ≠ [] := by
          obtain ⟨-, -, -, -, hsne, -⟩ := traverseMatch_onlyToken_decomp hm hlo
          exact hsne
        simp only [traverseGo, hm, hlo] at h
        match hfh : traverseFoldHelper km.next (lvl + 1) stack ty with
        | none => exact traverseFoldHelper_no_panic _ _ _ hlabfact hfh
        | some stack' =>
          rw [hfh] at h
          simp only at h
          exact ih km.next sufx ty stack' (lvl + 1) hchild hsne (by omega) h
      | SuffixType.OnlyEdge sufx =>
        simp only [traverseGo, hm, hlo] at h
        cases ty <;> simp at h
      | SuffixType.BothEdgeToken se st =>
        simp only [traverseGo, hm, hlo] at h
        exact absurd h (by simp)

theorem chain_subWF_all {V : Type} {m : Node V} {lvl : Nat} {lab : Option (List Nat)}
    {frames : List (TraverseItem V)} {tok : List Nat} {p : Node V}
    (hc : Chain m lvl lab frames tok p) (hwf : subWF m = true) :
    subWF p = true ∧ ∀ f ∈ frames, subWF f.node = true := by
  induction hc with
  | nil m' lvl' lab' => exact ⟨hwf, by intro f hf; simp at hf; subst hf; exact hwf⟩
  | cons m' lvl' lab' k c clab frames' tok' p' hl hclab hhd hsub ih =>
    have hc' : subWF c = true := subWF_of_lookup hwf hl
    obtain ⟨hp, hall⟩ := ih hc'
    refine ⟨hp, ?_⟩
    intro f hf
    rcases List.mem_cons.mp hf with hf | hf
    · subst hf; exact hwf
    · exact hall f hf

/-- Splitting a chain at its deepest frame: the initial frames form a
`ChainK` to the last node, whose own frame carries level `lvl + length`. -/
theorem chain_split {V : Type} {m : Node V} {lvl : Nat} {lab : Option (List Nat)}
    {frames : List (TraverseItem V)} {tok : List Nat} {p : Node V}
    (h : Chain m lvl lab frames tok p) :
    ∃ fr' plab, frames = fr' ++ [⟨p, 0, plab, lvl + fr'.length⟩] ∧
      ChainK m lvl fr' p := by
  induction h with
  | nil m' lvl' lab' => exact ⟨[], lab', by simp, ChainK.nil m' lvl'⟩
  | cons m' lvl' lab' k c clab frames' tok' p' hl hclab hhd hsub ih =>
    obtain ⟨fr₁, plab, hfr, hck⟩ := ih
    refine ⟨⟨m', k, lab', lvl'⟩ :: fr₁, plab, ?_, ?_⟩
    · rw [hfr]
      simp
      omega
    · exact ChainK.cons m' lvl' k c lab' fr₁ p' hl hck

/-- Top-level `Fold` traversal specification. -/
theorem traverse_fold_spec {V : Type} {n : Node V} {tok : List Nat}
    {res : TraverseResult V}
    (h : traverse n tok TraverseType.Fold = some (some res)) :
    ∃ st p, res = TraverseResult.Stack st ∧ tok ≠ [] ∧
      Chain n 0 none st.reverse tok p := by
  have htokne : tok ≠ [] := by
    intro he
    subst he
    simp [traverse, traverseGo, traverseMatch] at h
  match hgo : traverseGo (tok.length + 1) n tok TraverseType.Fold
      [⟨n, 0, none, 0⟩] 0 with
  | none => simp only [traverse, hgo] at h; exact absurd h (by simp)
  | some none => simp only [traverse, hgo] at h; exact absurd h (by simp)
  | some (some out) =>
    simp only [traverse, hgo, Option.some.injEq] at h
    subst h
    obtain ⟨tail, p, hst, hchain, hcur, hpt⟩ :=
      traverseGo_fold_spec (tok.length + 1) n tok [] none 0 out htokne hgo
    refine ⟨out.stack, p, rfl, htokne, ?_⟩
    rw [hst]
    simpa using hchain

/-- Under well-formedness a `Fold` traversal on a non-empty token does not
panic. -/
theorem traverse_no_panic {V : Type} {n : Node V} {tok : List Nat}
    (hwf : subWF n = true) (hne : tok ≠ []) (ty : TraverseType) :
    traverse n tok ty ≠ none := by
  intro h
  match hgo : traverseGo (tok.length + 1) n tok ty [⟨n, 0, none, 0⟩] 0 with
  | none =>
    exact traverseGo_no_panic (tok.length + 1) n tok ty [⟨n, 0, none, 0⟩] 0
      hwf hne (by omega) hgo
  | some none =>
    simp only [traverse, hgo] at h
    exact absurd h (by simp)
  | some (some out) =>
    simp only [traverse, hgo] at h
    exact absurd h (by simp)

/-! ## `edgeType` -/

theorem edgeType_eq_none_iff {V : Type} {n : Node V} :
    n.edgeType = none ↔ n.edges.length = 0 := by
  unfold Node.edgeType
  match h : n.edges.length with
  | 0 => simp
  | 1 => simp
  | Nat.succ (Nat.succ k) => simp

theorem edgeType_eq_single_iff {V : Type} {n : Node V} :
    n.edgeType = some EdgeType.Single ↔ n.edges.length = 1 := by
  unfold Node.edgeType
  match h : n.edges.length with
  | 0 => simp
  | 1 => simp
  | Nat.succ (Nat.succ k) => simp

theorem edgeType_eq_branching_iff {V : Type} {n : Node V} {m : Nat} :
    n.edgeType = some (EdgeType.Branching m) ↔ n.edges.length = m ∧ 2 ≤ m := by
  unfold Node.edgeType
  match h : n.edges.length with
  | 0 => simp; omega
  | 1 => simp; omega
  | Nat.succ (Nat.succ k) =>
    simp
    omega

/-! ## `captureLoop` characterization -/

theorem captureLoop_noop {V : Type} (frames : List (TraverseItem V))
    (replay : List Playback) (status : StatusSet) :
    captureLoop frames replay status Action.Noop =
      some ((keepsOf frames).reverse ++ replay) := by
  induction frames generalizing replay with
  | nil => simp [captureLoop, keepsOf]
  | cons f rest ih =>
    simp only [captureLoop, ih, keepsOf, List.map_cons, List.reverse_cons]
    simp [keepsOf]

theorem captureLoop_merge_nil {V : Type} (g : Nat) (replay : List Playback)
    (status : StatusSet) :
    captureLoop ([] : List (TraverseItem V)) (Playback.MergeTemp g :: replay)
      status Action.Merge = some (Playback.MergeTemp g :: replay) := rfl

theorem captureLoop_merge_cons {V : Type} (f : TraverseItem V)
    (rest : List (TraverseItem V)) (g : Nat) (replay : List Playback)
    (status : StatusSet) :
    captureLoop (f :: rest) (Playback.MergeTemp g :: replay) status Action.Merge =
      some ((keepsOf rest).reverse ++
        Playback.Merge (Cursor.DoubleLink f.level f.nextKey g) :: replay) := by
  simp only [captureLoop, captureLoop_noop]

theorem captureLoop_prune_key {V : Type} (f : TraverseItem V)
    (rest : List (TraverseItem V)) (replay : List Playback)
    (hkey : f.node.isKey = true) :
    captureLoop (f :: rest) replay ⟨true, false, false⟩ Action.Prune =
      some ((keepsOf rest).reverse ++
        Playback.Prune (Cursor.Link f.level f.nextKey) :: replay) := by
  simp only [captureLoop]
  rw [if_neg (by simp [hkey])]
  exact captureLoop_noop _ _ _

theorem captureLoop_prune_nosec {V : Type} (f : TraverseItem V)
    (rest : List (TraverseItem V)) (replay : List Playback)
    (hkey : f.node.isKey = false) (hlen0 : f.node.edges.length ≠ 0)
    (hlen2 : f.node.edges.length ≠ 2) :
    captureLoop (f :: rest) replay ⟨true, false, false⟩ Action.Prune =
      some ((keepsOf rest).reverse ++
        Playback.Prune (Cursor.Link f.level f.nextKey) :: replay) := by
  simp only [captureLoop]
  rw [if_pos (by simp [hkey, StatusSet.card])]
  match het : f.node.edgeType with
  | none => exact absurd (edgeType_eq_none_iff.mp het) hlen0
  | some et =>
    have hne : ¬et = EdgeType.Branching 2 := by
      intro he
      subst he
      exact hlen2 (edgeType_eq_branching_iff.mp het).1
    simp [hne, captureLoop_noop]

theorem captureLoop_prune_sec {V : Type} (f : TraverseItem V)
    (rest : List (TraverseItem V)) (replay : List Playback) {g : Nat}
    (hkey : f.node.isKey = false) (hlen : f.node.edges.length = 2)
    (hg : (f.node.edgesKeys.filter (fun k => k ≠ f.nextKey)).getLast? = some g) :
    captureLoop (f :: rest) replay ⟨true, false, false⟩ Action.Prune =
      captureLoop rest
        (Playback.MergeTemp g ::
          Playback.Prune (Cursor.Link f.level f.nextKey) :: replay)
        ⟨false, true, false⟩ Action.Merge := by
  simp only [captureLoop]
  rw [if_pos (by simp [hkey, StatusSet.card])]
  have het : f.node.edgeType = some (EdgeType.Branching 2) :=
    edgeType_eq_branching_iff.mpr ⟨hlen, le_refl 2⟩
  simp only [het]
  rw [if_true, hg]

/-! ## `subKeys` and `PathTo` -/

theorem subKeys_unfold {V : Type} (l : Option (List Nat)) (v : Option V)
    (t : NodeType) (e : List (Nat × Node V)) :
    Node.subKeys ⟨l, v, t, e⟩ =
      (if t = NodeType.Key then [([] : List Nat)] else []) ++ Node.subKeysList e := by
  rw [Node.subKeys]

theorem mem_subKeysList_of {V : Type} {b : Nat} {c : Node V}
    {e : List (Nat × Node V)} (hm : (b, c) ∈ e) {x : List Nat}
    (hx : x ∈ Node.subKeys c) : (c.label.getD [] ++ x) ∈ Node.subKeysList e := by
  induction e with
  | nil => simp at hm
  | cons hd rest ih =>
    obtain ⟨b', c'⟩ := hd
    rw [Node.subKeysList]
    rcases List.mem_cons.mp hm with h | h
    · cases h
      exact List.mem_append_left _ (List.mem_map.mpr ⟨x, hx, rfl⟩)
    · exact List.mem_append_right _ (ih h)

theorem nil_not_mem_subKeysList {V : Type} {e : List (Nat × Node V)}
    (hwfe : edgesWF e = true) : ([] : List Nat) ∉ Node.subKeysList e := by
  induction e with
  | nil => simp [Node.subKeysList]
  | cons hd rest ih =>
    obtain ⟨b', c'⟩ := hd
    rw [edgesWF_cons, Bool.and_eq_true] at hwfe
    rw [Node.subKeysList]
    intro h
    rcases List.mem_append.mp h with h | h
    · obtain ⟨x, hx, hxe⟩ := List.mem_map.mp h
      obtain ⟨⟨l', hl'⟩, -, -⟩ := goodChild_iff.mp hwfe.1
      rw [hl'] at hxe
      simp at hxe
    · exact ih hwfe.2 h

theorem nil_mem_subKeys_iff {V : Type} {n : Node V} (hwf : subWF n = true) :
    ([] : List Nat) ∈ Node.subKeys n ↔ n.tag = NodeType.Key := by
  have hwfe : edgesWF n.edges = true := (subWF_iff.mp hwf).2.2
  obtain ⟨l, v, t, e⟩ := n
  rw [subKeys_unfold]
  simp only [Node.tag_mk]
  simp only [Node.edges_mk] at hwfe
  constructor
  · intro h
    rcases List.mem_append.mp h with h | h
    · by_cases ht : t = NodeType.Key
      · exact ht
      · rw [if_neg ht] at h; simp at h
    · exact absurd h (nil_not_mem_subKeysList hwfe)
  · intro ht
    rw [if_pos ht]
    simp

theorem pathTo_key_mem {V : Type} {n p : Node V} {tok : List Nat}
    (h : PathTo n tok p) (hk : p.tag = NodeType.Key) : tok ∈ Node.subKeys n := by
  induction h with
  | refl n' =>
    obtain ⟨l, v, t, e⟩ := n'
    rw [subKeys_unfold]
    simp only [Node.tag_mk] at hk
    rw [if_pos hk]
    simp
  | step n' k c lab rest p' hl hlab hhd hp ih =>
    have hm := alistLookup_mem hl
    have := mem_subKeysList_of hm (ih hk)
    rw [hlab] at this
    simp only [Option.getD_some] at this
    obtain ⟨l, v, t, e⟩ := n'
    rw [subKeys_unfold]
    exact List.mem_append_right _ this

theorem chain_pathTo {V : Type} {m : Node V} {lvl : Nat} {lab : Option (List Nat)}
    {frames : List (TraverseItem V)} {tok : List Nat} {p : Node V}
    (h : Chain m lvl lab frames tok p) : PathTo m tok p := by
  induction h with
  | nil m' lvl' lab' => exact PathTo.refl m'
  | cons m' lvl' lab' k c clab frames' tok' p' hl hclab hhd hsub ih =>
    exact PathTo.step m' k c clab tok' p' hl hclab hhd ih

/-! ## Executor lemmas -/

@[simp] theorem withEdges_label {V : Type} (n : Node V) (e : List (Nat × Node V)) :
    (n.withEdges e).label = n.label := rfl

@[simp] theorem withEdges_value {V : Type} (n : Node V) (e : List (Nat × Node V)) :
    (n.withEdges e).value = n.value := rfl

@[simp] theorem withEdges_tag {V : Type} (n : Node V) (e : List (Nat × Node V)) :
    (n.withEdges e).tag = n.tag := rfl

@[simp] theorem withEdges_edges {V : Type} (n : Node V) (e : List (Nat × Node V)) :
    (n.withEdges e).edges = e := rfl

theorem goodChild_of_preserved {V : Type} {b : Nat} {c c' : Node V}
    (hg : goodChild b c = true) (hlab : c'.label = c.label) (htag : c'.tag = c.tag)
    (hlen : c'.edges.length = c.edges.length) (hwf : subWF c' = true) :
    goodChild b c' = true := by
  rw [goodChild_iff] at hg ⊢
  obtain ⟨⟨l, hl⟩, hcomp, -⟩ := hg
  exact ⟨⟨l, hlab ▸ hl⟩, fun ht => hlen ▸ hcomp (htag ▸ ht), hwf⟩

theorem mem_keys_of_lookup {V : Type} {k : Nat} {c : Node V}
    {e : List (Nat × Node V)} (hl : alistLookup k e = some c) :
    k ∈ e.map Prod.fst :=
  List.mem_map.mpr ⟨(k, c), alistLookup_mem hl, rfl⟩

theorem subWF_update_child {V : Type} {m : Node V} {k : Nat} {c c' : Node V}
    (hwf : subWF m = true) (hl : alistLookup k m.edges = some c)
    (hgc' : goodChild k c' = true) :
    subWF (m.withEdges (alistInsert k c' m.edges)) = true ∧
      (alistInsert k c' m.edges).length = m.edges.length := by
  obtain ⟨hvt, hnd, hew⟩ := subWF_iff.mp hwf
  have hkm := mem_keys_of_lookup hl
  constructor
  · rw [subWF_iff]
    refine ⟨by simpa using hvt, ?_, ?_⟩
    · simp only [withEdges_edges]
      rw [alistInsert_map_fst_of_mem c' hkm]
      exact hnd
    · simp only [withEdges_edges]
      rw [edgesWF_iff_forall]
      intro b' cc hm
      rcases mem_alistInsert hm with ⟨hb, hc⟩ | hm'
      · subst hb; subst hc
        exact hgc'
      · exact edgesWF_iff_forall.mp hew _ _ hm'
  · exact alistInsert_length_of_mem c' hkm

theorem removeGo_keep_eq {V : Type} {lvl k : Nat} {rest : List Playback}
    {m : Node V} {acc : Option V} {c : Node V}
    (hl : alistLookup k m.edges = some c) :
    removeGo (Playback.Keep (Cursor.Link lvl k) :: rest) lvl m acc =
      match removeGo rest (lvl + 1) c acc with
      | none => none
      | some (c', v') => some (m.withEdges (alistInsert k c' m.edges), v') := by
  simp [removeGo, Node.lookupEdge, hl]

/-- Lifting an executor run across a segment of `Keep` directives: the run
descends the recorded chain, re-installs each rebuilt child, and preserves
everything a parent needs to stay well-formed, provided the transformation
applied at the bottom node maps good children to good children. -/
theorem removeGo_keeps {V : Type} :
    ∀ (frames : List (TraverseItem V)) (m : Node V) (lvl : Nat) (q : Node V)
      (tail : List Playback) (acc : Option V) (q' : Node V) (v : Option V),
      ChainK m lvl frames q → frames ≠ [] → subWF m = true →
      removeGo tail (lvl + frames.length) q acc = some (q', v) →
      (∀ b, goodChild b q = true → goodChild b q' = true) →
      ∃ m', removeGo (keepsOf frames ++ tail) lvl m acc = some (m', v) ∧
        m'.label = m.label ∧ m'.tag = m.tag ∧ m'.value = m.value ∧
        m'.edges.length = m.edges.length ∧ subWF m' = true := by
  intro frames
  induction frames with
  | nil => intro m lvl q tail acc q' v hck hne; exact absurd rfl hne
  | cons f rest ih =>
    intro m lvl q tail acc q' v hck hne hwf hbase htrans
    cases hck with
    | cons _ _ k c lab _ _ hl hsub =>
      have hgc : goodChild k c = true := goodChild_of_lookup hwf hl
      have hwfc : subWF c = true := (goodChild_iff.mp hgc).2.2
      rw [keepsOf, List.map_cons, List.cons_append, ← keepsOf]
      by_cases hr : rest = []
      · subst hr
        cases hsub
        rw [keepsOf]
        simp only [List.map_nil, List.nil_append]
        have hbase' : removeGo tail (lvl + 1) q acc = some (q', v) := by
          simpa using hbase
        have hgq' : goodChild k q' = true := htrans k hgc
        obtain ⟨hsw, hlen⟩ := subWF_update_child hwf hl hgq'
        refine ⟨m.withEdges (alistInsert k q' m.edges), ?_, by simp, by simp, by simp,
          by simpa using hlen, hsw⟩
        rw [removeGo_keep_eq hl, hbase']
      · have hbase' : removeGo tail ((lvl + 1) + rest.length) q acc = some (q', v) := by
          have harith : (lvl + 1) + rest.length = lvl + (rest.length + 1) := by omega
          rw [harith]
          simpa using hbase
        obtain ⟨c', hc'run, hclab, hctag, hcval, hclen, hcwf⟩ :=
          ih c (lvl + 1) q tail acc q' v hsub hr hwfc hbase' htrans
        have hgc' : goodChild k c' = true :=
          goodChild_of_preserved hgc hclab hctag hclen hcwf
        obtain ⟨hsw, hlen⟩ := subWF_update_child hwf hl hgc'
        refine ⟨m.withEdges (alistInsert k c' m.edges), ?_, by simp, by simp, by simp,
          by simpa using hlen, hsw⟩
        rw [removeGo_keep_eq hl, hc'run]

theorem chain_frames_ne_nil {V : Type} {m : Node V} {lvl : Nat}
    {lab : Option (List Nat)} {frames : List (TraverseItem V)} {tok : List Nat}
    {p : Node V} (h : Chain m lvl lab frames tok p) : frames ≠ [] := by
  cases h <;> simp

theorem chain_singleton {V : Type} {m : Node V} {lvl : Nat}
    {lab : Option (List Nat)} {f : TraverseItem V} {tok : List Nat} {p : Node V}
    (h : Chain m lvl lab [f] tok p) : tok = [] ∧ p = m := by
  cases h with
  | nil => exact ⟨rfl, rfl⟩
  | cons _ _ _ k c clab frames' tok' p' hl hclab hhd hsub =>
    exact absurd rfl (chain_frames_ne_nil hsub)

theorem chainK_subWF {V : Type} {m : Node V} {lvl : Nat}
    {frames : List (TraverseItem V)} {q : Node V}
    (h : ChainK m lvl frames q) (hwf : subWF m = true) : subWF q = true := by
  induction h with
  | nil => exact hwf
  | cons m' lvl' k c lab frames' q' hl hsub ih => exact ih (subWF_of_lookup hwf hl)

theorem chainK_snoc {V : Type} {m : Node V} {lvl : Nat}
    {frames : List (TraverseItem V)} {q : Node V}
    (h : ChainK m lvl frames q) (hne : frames ≠ []) :
    ∃ fr'' A k albl, frames = fr'' ++ [⟨A, k, albl, lvl + fr''.length⟩] ∧
      ChainK m lvl fr'' A ∧ alistLookup k A.edges = some q := by
  induction h with
  | nil => exact absurd rfl hne
  | cons m' lvl' k c lab frames' q' hl hsub ih =>
    by_cases hf : frames' = []
    · subst hf
      cases hsub
      exact ⟨[], m', k, lab, by simp, ChainK.nil m' lvl', hl⟩
    · obtain ⟨fr₁, A, k', albl, hfr, hck, hlk⟩ := ih hf
      refine ⟨⟨m', k, lab, lvl'⟩ :: fr₁, A, k', albl, ?_, ?_, hlk⟩
      · rw [hfr]
        simp
        omega
      · exact ChainK.cons m' lvl' k c lab fr₁ A hl hck

theorem keepsOf_reverse {V : Type} (l : List (TraverseItem V)) :
    keepsOf l.reverse = (keepsOf l).reverse := by
  simp [keepsOf]

theorem subWF_relabel {V : Type} (l l' : Option (List Nat)) (v : Option V)
    (t : NodeType) (e : List (Nat × Node V)) :
    subWF (⟨l', v, t, e⟩ : Node V) = subWF ⟨l, v, t, e⟩ := rfl

theorem node_eta {V : Type} (n : Node V) : (⟨n.label, n.value, n.tag, n.edges⟩ : Node V) = n := by
  obtain ⟨l, v, t, e⟩ := n
  rfl

/-- A keeps-only plan rebuilds the tree unchanged. -/
theorem removeGo_keeps_id {V : Type} :
    ∀ (frames : List (TraverseItem V)) (m : Node V) (lvl : Nat) (q : Node V)
      (acc : Option V),
      ChainK m lvl frames q →
      removeGo (keepsOf frames) lvl m acc = some (m, acc) := by
  intro frames
  induction frames with
  | nil => intro m lvl q acc hck; simp [keepsOf, removeGo]
  | cons f rest ih =>
    intro m lvl q acc hck
    cases hck with
    | cons _ _ k c lab _ _ hl hsub =>
      rw [keepsOf, List.map_cons, ← keepsOf]
      rw [removeGo_keep_eq hl, ih c (lvl + 1) q acc hsub]
      simp only [Option.some.injEq]
      rw [alistInsert_of_lookup hl]
      rw [show m.withEdges m.edges = m from by obtain ⟨l, v, t, e⟩ := m; rfl]

/-- The single outgoing edge of a one-edge node. -/
theorem single_child {V : Type} {T : Node V} (hlen : T.edges.length = 1) :
    ∃ g S, T.edges = [(g, S)] ∧ (T.edges.map Prod.fst).getLast? = some g ∧
      alistLookup g T.edges = some S := by
  match he : T.edges, hlen with
  | [(g, S)], _ =>
    exact ⟨g, S, rfl, by simp, by simp [alistLookup]⟩

/-- The surviving sibling of a pruned edge in a two-edge node. -/
theorem sibling_exists {V : Type} {A : Node V} {k1 : Nat}
    (hnd : (A.edges.map Prod.fst).Nodup) (hlen : A.edges.length = 2)
    (hmem : k1 ∈ A.edges.map Prod.fst) :
    ∃ g S, ((A.edges.map Prod.fst).filter (fun k => k ≠ k1)).getLast? = some g ∧
      g ≠ k1 ∧ alistLookup g A.edges = some S ∧ (g, S) ∈ A.edges := by
  match he : A.edges, hlen with
  | [(a, x), (b, y)], _ =>
    rw [he] at hnd hmem
    simp at hnd hmem
    rcases hmem with h1 | h1
    · subst h1
      have hbk : ¬b = k1 := fun hc => hnd hc.symm
      refine ⟨b, y, ?_, hbk, ?_, by simp⟩
      · simp [List.filter, hbk]
      · simp [alistLookup, hnd]
    · subst h1
      have hak : ¬a = k1 := hnd
      refine ⟨a, x, ?_, hak, ?_, by simp⟩
      · simp [List.filter, hak]
      · simp [alistLookup]

/-! ## Executor base-plan computations -/

theorem removeGo_unmark_eq {V : Type} (L : Nat) (T : Node V) (acc : Option V) :
    removeGo [Playback.Unmark (Cursor.Node L)] L T acc =
      some (⟨T.label, none, NodeType.Inner, T.edges⟩, T.value) := by
  simp [removeGo]

theorem removeGo_prune_unmark_eq {V : Type} (L k : Nat) {A T : Node V}
    (acc : Option V) (hl : alistLookup k A.edges = some T) :
    removeGo [Playback.Prune (Cursor.Link L k),
      Playback.Unmark (Cursor.Node (L + 1))] L A acc =
      some (A.withEdges (alistRemove k A.edges), T.value) := by
  simp [removeGo, Node.lookupEdge, hl]

theorem removeGo_merge_unmark_eq {V : Type} (L k g : Nat) {A T S : Node V}
    {la lb : List Nat} (acc : Option V)
    (hlT : alistLookup k A.edges = some T) (hlS : alistLookup g T.edges = some S)
    (hTlab : T.label = some la) (hSlab : S.label = some lb) :
    removeGo [Playback.Merge (Cursor.DoubleLink L k g),
      Playback.Unmark (Cursor.Node (L + 1))] L A acc =
      some (A.withEdges (alistInsert k ⟨some (la ++ lb), S.value, S.tag, S.edges⟩
        (alistRemove k A.edges)), T.value) := by
  simp [removeGo, handlePassthrough, Node.lookupEdge, hlT, hlS, hTlab, hSlab]

theorem removeGo_merge_prune_unmark_eq {V : Type} (L k2 g k1 : Nat)
    {B A S T : Node V} {la lb : List Nat} (acc : Option V)
    (hlA : alistLookup k2 B.edges = some A) (hlS : alistLookup g A.edges = some S)
    (hAlab : A.label = some la) (hSlab : S.label = some lb)
    (hne : k1 ≠ g) (hlT : alistLookup k1 A.edges = some T) :
    removeGo [Playback.Merge (Cursor.DoubleLink L k2 g),
      Playback.Prune (Cursor.Link (L + 1) k1),
      Playback.Unmark (Cursor.Node (L + 1 + 1))] L B acc =
      some (B.withEdges (alistInsert k2 ⟨some (la ++ lb), S.value, S.tag, S.edges⟩
        (alistRemove k2 B.edges)), T.value) := by
  have hlT' : alistLookup k1 (alistRemove g A.edges) = some T := by
    rw [alistLookup_remove_ne hne]
    exact hlT
  simp [removeGo, handlePassthrough, Node.lookupEdge, hlA, hlS, hAlab, hSlab, hlT']

/-! ## Well-formedness surgery -/

theorem captureFinish_some_eq {plan replay : List Playback}
    (h : captureFinish (some plan) = some (some replay)) : replay = plan := by
  simp only [captureFinish] at h
  by_cases hp : plan.isEmpty = true
  · rw [if_pos hp] at h
    exact absurd h (by simp)
  · rw [if_neg hp] at h
    simp only [Option.some.injEq] at h
    exact h.symm

theorem removeGo_mergeTemp_none {V : Type} (g : Nat) (rest : List Playback)
    (counter : Nat) (cur : Node V) (v : Option V) :
    removeGo (Playback.MergeTemp g :: rest) counter cur v = none := rfl

theorem subWF_remove_child {V : Type} {m : Node V} (k : Nat)
    (hwf : subWF m = true) :
    subWF (m.withEdges (alistRemove k m.edges)) = true := by
  obtain ⟨hvt, hnd, hew⟩ := subWF_iff.mp hwf
  rw [subWF_iff]
  refine ⟨by simpa using hvt, ?_, ?_⟩
  · simp only [withEdges_edges]
    exact hnd.sublist (alistRemove_map_fst_sublist k m.edges)
  · simp only [withEdges_edges]
    rw [edgesWF_iff_forall]
    intro b c hm
    exact edgesWF_iff_forall.mp hew b c (mem_alistRemove hm)

theorem goodChild_prune {V : Type} {A p : Node V} {k b : Nat}
    (hl : alistLookup k A.edges = some p)
    (hcase : A.tag = NodeType.Key ∨ A.edges.length ≠ 2)
    (hg : goodChild b A = true) :
    goodChild b (A.withEdges (alistRemove k A.edges)) = true := by
  rw [goodChild_iff] at hg ⊢
  obtain ⟨hlab, hcomp, hwf⟩ := hg
  have hkm := mem_keys_of_lookup hl
  have hlen := alistRemove_length_of_mem hkm
  refine ⟨by simpa using hlab, ?_, subWF_remove_child k hwf⟩
  intro ht
  simp only [withEdges_tag] at ht
  rcases hcase with hc | hc
  · rw [ht] at hc
    exact absurd hc (by simp)
  · have h2 := hcomp ht
    simp only [withEdges_edges]
    omega

theorem goodChild_merged {V : Type} {T S : Node V} {k g : Nat} {la lb : List Nat}
    (hgT : goodChild k T = true) (hTlab : T.label = some la)
    (hlS : alistLookup g T.edges = some S) (hSlab : S.label = some lb) :
    goodChild k (⟨some (la ++ lb), S.value, S.tag, S.edges⟩ : Node V) = true := by
  obtain ⟨⟨l, hl⟩, -, hwfT⟩ := goodChild_iff.mp hgT
  obtain ⟨-, hcompS, hwfS⟩ := goodChild_iff.mp (goodChild_of_lookup hwfT hlS)
  have hla : la = k :: l := by
    rw [hTlab] at hl
    injection hl
  rw [goodChild_iff]
  refine ⟨⟨l ++ lb, by simp [hla]⟩, ?_, ?_⟩
  · intro ht
    simpa using hcompS (by simpa using ht)
  · have hsw : subWF (⟨some (la ++ lb), S.value, S.tag, S.edges⟩ : Node V) =
        subWF S := by
      rw [subWF_relabel S.label (some (la ++ lb)) S.value S.tag S.edges, node_eta]
    rw [hsw]
    exact hwfS

theorem subWF_merge_parent {V : Type} {X T : Node V} {k : Nat} {S' : Node V}
    (hwf : subWF X = true) (hl : alistLookup k X.edges = some T)
    (hgS' : goodChild k S' = true) :
    subWF (X.withEdges (alistInsert k S' (alistRemove k X.edges))) = true ∧
      (alistInsert k S' (alistRemove k X.edges)).length = X.edges.length := by
  obtain ⟨hvt, hnd, hew⟩ := subWF_iff.mp hwf
  have hkm := mem_keys_of_lookup hl
  have hknot : k ∉ (alistRemove k X.edges).map Prod.fst :=
    alistLookup_eq_none_iff.mp (alistLookup_remove_self hnd)
  have hndr : ((alistRemove k X.edges).map Prod.fst).Nodup :=
    hnd.sublist (alistRemove_map_fst_sublist k X.edges)
  have hrlen := alistRemove_length_of_mem hkm
  refine ⟨?_, ?_⟩
  · rw [subWF_iff]
    refine ⟨by simpa using hvt, ?_, ?_⟩
    · simp only [withEdges_edges]
      rw [alistInsert_map_fst_of_not_mem S' hknot]
      simp only [List.nodup_append, List.nodup_cons, List.nodup_nil]
      exact ⟨hndr, ⟨by simp, trivial⟩, by simpa [List.disjoint_singleton] using hknot⟩
    · simp only [withEdges_edges]
      rw [edgesWF_iff_forall]
      intro b c hm
      rcases mem_alistInsert hm with ⟨hb, hc⟩ | hm'
      · subst hb
        subst hc
        exact hgS'
      · exact edgesWF_iff_forall.mp hew b c (mem_alistRemove hm')
  · rw [alistInsert_length_of_not_mem S' hknot]
    omega

theorem goodChild_merge_transport {V : Type} {X T : Node V} {k : Nat}
    {S' : Node V} (hwf : subWF X = true) (hl : alistLookup k X.edges = some T)
    (hgS' : goodChild k S' = true) {b : Nat} (hg : goodChild b X = true) :
    goodChild b (X.withEdges (alistInsert k S' (alistRemove k X.edges))) = true := by
  obtain ⟨hsw, hlen⟩ := subWF_merge_parent hwf hl hgS'
  exact goodChild_of_preserved hg (by simp) (by simp) (by simpa using hlen) hsw

theorem goodChild_unmark {V : Type} {p : Node V} (hlen : 2 ≤ p.edges.length)
    {b : Nat} (hg : goodChild b p = true) :
    goodChild b (⟨p.label, none, NodeType.Inner, p.edges⟩ : Node V) = true := by
  rw [goodChild_iff] at hg ⊢
  obtain ⟨hlab, -, hwf⟩ := hg
  obtain ⟨-, hnd, hew⟩ := subWF_iff.mp hwf
  refine ⟨by simpa using hlab, fun _ => by simpa using hlen, ?_⟩
  rw [subWF_iff]
  exact ⟨by simp, by simpa using hnd, by simpa using hew⟩

/-! ## Insertion preserves well-formedness -/

theorem alistInsert_insert_self {α : Type} (k : Nat) (a b : α)
    (l : List (Nat × α)) :
    alistInsert k a (alistInsert k b l) = alistInsert k a l := by
  induction l with
  | nil => simp [alistInsert]
  | cons hd tl ih =>
    obtain ⟨k', v'⟩ := hd
    by_cases h : k' = k
    · subst h
      simp [alistInsert]
    · simp [alistInsert, h, ih]

theorem goodChild_of_mono {V : Type} {b : Nat} {c c' : Node V}
    (hg : goodChild b c = true) (hlab : c'.label = c.label) (htag : c'.tag = c.tag)
    (hlen : c.edges.length ≤ c'.edges.length) (hwf : subWF c' = true) :
    goodChild b c' = true := by
  rw [goodChild_iff] at hg ⊢
  obtain ⟨⟨l, hl⟩, hcomp, -⟩ := hg
  exact ⟨⟨l, hlab ▸ hl⟩, fun ht => le_trans (hcomp (htag ▸ ht)) hlen, hwf⟩

theorem subWF_insert_new_child {V : Type} {m : Node V} {k : Nat} {c' : Node V}
    (hwf : subWF m = true) (hnone : alistLookup k m.edges = none)
    (hgc : goodChild k c' = true) :
    subWF (m.withEdges (alistInsert k c' m.edges)) = true ∧
      (alistInsert k c' m.edges).length = m.edges.length + 1 := by
  obtain ⟨hvt, hnd, hew⟩ := subWF_iff.mp hwf
  have hknot : k ∉ m.edges.map Prod.fst := alistLookup_eq_none_iff.mp hnone
  refine ⟨?_, alistInsert_length_of_not_mem c' hknot⟩
  rw [subWF_iff]
  refine ⟨by simpa using hvt, ?_, ?_⟩
  · simp only [withEdges_edges]
    rw [alistInsert_map_fst_of_not_mem c' hknot]
    simp only [List.nodup_append, List.nodup_cons, List.nodup_nil]
    exact ⟨hnd, ⟨by simp, trivial⟩, by simpa [List.disjoint_singleton] using hknot⟩
  · simp only [withEdges_edges]
    rw [edgesWF_iff_forall]
    intro b c hm
    rcases mem_alistInsert hm with ⟨hb, hc⟩ | hm'
    · subst hb
      subst hc
      exact hgc
    · exact edgesWF_iff_forall.mp hew b c hm'

theorem goodChild_finalize {V : Type} {b : Nat} {c : Node V} (v : V)
    (hg : goodChild b c = true) :
    goodChild b (⟨c.label, some v, NodeType.Key, c.edges⟩ : Node V) = true := by
  rw [goodChild_iff] at hg ⊢
  obtain ⟨hlab, -, hwf⟩ := hg
  obtain ⟨-, hnd, hew⟩ := subWF_iff.mp hwf
  refine ⟨by simpa using hlab, by simp, ?_⟩
  rw [subWF_iff]
  exact ⟨by simp, by simpa using hnd, by simpa using hew⟩

theorem subWF_fresh_key {V : Type} (lab : List Nat) (v : V) :
    subWF (⟨some lab, some v, NodeType.Key, []⟩ : Node V) = true := rfl

theorem goodChild_fresh_key {V : Type} (k : Nat) (rest : List Nat) (v : V) :
    goodChild k (⟨some (k :: rest), some v, NodeType.Key, []⟩ : Node V) = true := by
  rw [goodChild_iff]
  exact ⟨⟨rest, rfl⟩, by simp, subWF_fresh_key _ _⟩

theorem finalizeInsert_fst {V : Type} (n : Node V) (v : V) :
    (finalizeInsert n v).1 = ⟨n.label, some v, NodeType.Key, n.edges⟩ := by
  cases h : n.tag <;> simp [finalizeInsert, h]

/-- One step of the insertion loop preserves the current node's label, tag
and value, can only grow its edge map, and preserves subtree
well-formedness. -/
theorem insertGo_preserves {V : Type} :
    ∀ (fuel : Nat) (current : Node V) (tok : List Nat) (v : V)
      (n' : Node V) (res : Option V),
      subWF current = true → tok ≠ [] →
      insertGo fuel current tok v = some (n', res) →
      n'.label = current.label ∧ n'.tag = current.tag ∧
      n'.value = current.value ∧ current.edges.length ≤ n'.edges.length ∧
      subWF n' = true := by
  intro fuel
  induction fuel with
  | zero =>
    intro current tok v n' res hwf hne hins
    exact absurd hins (by simp [insertGo])
  | succ fuel ih =>
    intro current tok v n' res hwf hne hins
    match htm : traverseMatch current tok with
    | none =>
      simp only [insertGo, htm] at hins
      exact absurd hins (by simp)
    | some none =>
      -- no matching edge: append a fresh key leaf
      cases tok with
      | nil => exact absurd rfl hne
      | cons t0 ts =>
        have hlk : alistLookup t0 current.edges = none :=
          traverseMatch_some_none_wf hwf htm
        simp only [insertGo, htm, Node.new, finalizeInsert, Node.tag_mk,
          Node.label_mk, Node.value_mk, Node.edges_mk] at hins
        simp only [Option.some.injEq, Prod.mk.injEq] at hins
        obtain ⟨hn', -⟩ := hins
        have hgc : goodChild t0
            (⟨some (t0 :: ts), some v, NodeType.Key, []⟩ : Node V) = true :=
          goodChild_fresh_key t0 ts v
        obtain ⟨hsw, hlen⟩ := subWF_insert_new_child hwf hlk hgc
        rw [← hn']
        refine ⟨by simp, by simp, by simp, ?_, hsw⟩
        simp only [withEdges_edges]
        omega
    | some (some km) =>
      match hlo : km.leftover with
      | SuffixType.Empty =>
        -- exact match: finalize the child in place
        obtain ⟨-, -, hlook, -, -⟩ := traverseMatch_empty_decomp htm hlo
        have hgc : goodChild km.edgeKey km.next = true := goodChild_of_lookup hwf hlook
        simp only [insertGo, htm, hlo, Node.lookupEdge, hlook] at hins
        simp only [Option.some.injEq, Prod.mk.injEq] at hins
        obtain ⟨hn', -⟩ := hins
        have hgc' : goodChild km.edgeKey (finalizeInsert km.next v).1 = true := by
          rw [finalizeInsert_fst]
          exact goodChild_finalize v hgc
        obtain ⟨hsw, hlen⟩ := subWF_update_child hwf hlook hgc'
        rw [← hn']
        refine ⟨by simp, by simp, by simp, ?_, hsw⟩
        simp only [withEdges_edges]
        omega
      | SuffixType.OnlyToken sufxt =>
        -- token continues below the child: recurse
        obtain ⟨-, hlook, -, -, hsne, -⟩ := traverseMatch_onlyToken_decomp htm hlo
        have hgc : goodChild km.edgeKey km.next = true := goodChild_of_lookup hwf hlook
        have hwfc : subWF km.next = true := (goodChild_iff.mp hgc).2.2
        simp only [insertGo, htm, hlo, Node.lookupEdge, hlook] at hins
        match hrec : insertGo fuel km.next sufxt v with
        | none => rw [hrec] at hins; exact absurd hins (by simp)
        | some (child', old) =>
          rw [hrec] at hins
          simp only [Option.some.injEq, Prod.mk.injEq] at hins
          obtain ⟨hn', -⟩ := hins
          obtain ⟨hclab, hctag, -, hclen, hcwf⟩ :=
            ih km.next sufxt v child' old hwfc hsne hrec
          have hgc' : goodChild km.edgeKey child' = true :=
            goodChild_of_mono hgc hclab hctag hclen hcwf
          obtain ⟨hsw, hlen⟩ := subWF_update_child hwf hlook hgc'
          rw [← hn']
          refine ⟨by simp, by simp, by simp, ?_, hsw⟩
          simp only [withEdges_edges]
          omega
      | SuffixType.OnlyEdge sufxe =>
        -- token ends inside the edge label: bridge-split, key the bridge
        obtain ⟨hhd, hlook, hclab, hcom, hsne⟩ := traverseMatch_onlyEdge_decomp htm hlo
        have hgc : goodChild km.edgeKey km.next = true := goodChild_of_lookup hwf hlook
        have hcne : km.common ≠ [] := by
          rw [hcom]
          exact hne
        match hsx : sufxe, hsne with
        | x :: xs, _ =>
          simp only [insertGo, htm, hlo, insertBridge] at hins
          rw [if_neg (by simp [List.isEmpty_iff, hcne])] at hins
          simp only [hlook, finalizeInsert, Node.tag_mk, Node.label_mk,
            Node.value_mk, Node.edges_mk, Option.some.injEq, Prod.mk.injEq] at hins
          obtain ⟨hn', -⟩ := hins
          -- the bridge is immediately replaced by its keyed form
          rw [← hn']
          simp only [withEdges_edges, withEdges_label, withEdges_value, withEdges_tag]
          rw [alistInsert_insert_self]
          have hkey : ∃ c0, km.common = km.edgeKey :: c0 := by
            match htk : tok, hne with
            | t0 :: ts, _ =>
              simp only [List.head?_cons, Option.mem_def, Option.some.injEq] at hhd
              exact ⟨ts, by rw [hcom, hhd]⟩
          obtain ⟨c0, hc0⟩ := hkey
          have hgold : goodChild x
              (⟨some (x :: xs), km.next.value, km.next.tag, km.next.edges⟩ :
                Node V) = true := by
            rw [goodChild_iff]
            obtain ⟨-, hcomp, hwfn⟩ := goodChild_iff.mp hgc
            refine ⟨⟨xs, rfl⟩, by simpa using hcomp, ?_⟩
            rw [subWF_relabel km.next.label]
            rw [show (⟨km.next.label, km.next.value, km.next.tag, km.next.edges⟩ :
              Node V) = km.next from node_eta km.next]
            exact hwfn
          have hgfin : goodChild km.edgeKey
              (⟨some km.common, some v, NodeType.Key,
                [(x, ⟨some (x :: xs), km.next.value, km.next.tag,
                  km.next.edges⟩)]⟩ : Node V) = true := by
            rw [goodChild_iff]
            refine ⟨⟨c0, by rw [Node.label_mk, hc0]⟩, by simp, ?_⟩
            rw [subWF_iff]
            refine ⟨by simp, by simp, ?_⟩
            rw [edgesWF_iff_forall]
            intro b c hm
            simp only [Node.edges_mk, List.mem_singleton] at hm
            cases hm
            exact hgold
          obtain ⟨hsw, hlen⟩ := subWF_merge_parent hwf hlook hgfin
          refine ⟨by simp, by simp, by simp, by omega, hsw⟩
      | SuffixType.BothEdgeToken sufxe sufxt =>
        -- genuine divergence: bridge-split, then hang a fresh leaf off the bridge
        obtain ⟨hhd, hlook, hclab, htokeq, hsene, hstne, hcne, hdiv⟩ :=
          traverseMatch_both_decomp htm hlo
        have hgc : goodChild km.edgeKey km.next = true := goodChild_of_lookup hwf hlook
        match hsx : sufxe, hsene, hsy : sufxt, hstne with
        | x :: xs, _, y :: ys, _ =>
          have hxy : x ≠ y := hdiv x y rfl rfl
          simp only [insertGo, htm, hlo, insertBridge] at hins
          rw [if_neg (by simp [List.isEmpty_iff, hcne])] at hins
          simp only [hlook] at hins
          -- one more step of the loop on the bridge: the token byte `y`
          -- misses the bridge's only edge `x`
          cases fuel with
          | zero => simp [insertGo] at hins
          | succ fuel₂ =>
            simp only [insertGo, traverseMatch, Node.lookupEdge, Node.edges_mk,
              alistLookup, if_neg hxy, Node.new, finalizeInsert, Node.tag_mk,
              Node.label_mk, Node.value_mk] at hins
            simp only [alistInsert, if_neg hxy, Option.some.injEq,
              Prod.mk.injEq] at hins
            obtain ⟨hn', -⟩ := hins
            rw [← hn']
            simp only [Node.withEdges, Node.label_mk, Node.value_mk, Node.tag_mk,
              Node.edges_mk]
            rw [alistInsert_insert_self]
            have hkey : ∃ c0, km.common = km.edgeKey :: c0 := by
              match hc : km.common, hcne with
              | c0h :: c0t, _ =>
                rw [htokeq, hc] at hhd
                simp only [List.cons_append, List.head?_cons, Option.mem_def,
                  Option.some.injEq] at hhd
                exact ⟨c0t, by rw [hhd]⟩
            obtain ⟨c0, hc0⟩ := hkey
            have hgold : goodChild x
                (⟨some (x :: xs), km.next.value, km.next.tag, km.next.edges⟩ :
                  Node V) = true := by
              rw [goodChild_iff]
              obtain ⟨-, hcomp, hwfn⟩ := goodChild_iff.mp hgc
              refine ⟨⟨xs, rfl⟩, by simpa using hcomp, ?_⟩
              rw [subWF_relabel km.next.label]
              rw [show (⟨km.next.label, km.next.value, km.next.tag,
                km.next.edges⟩ : Node V) = km.next from node_eta km.next]
              exact hwfn
            have hgbridge : goodChild km.edgeKey
                (⟨some km.common, none, NodeType.Inner,
                  [(x, ⟨some (x :: xs), km.next.value, km.next.tag,
                    km.next.edges⟩),
                   (y, ⟨some (y :: ys), some v, NodeType.Key, []⟩)]⟩ :
                  Node V) = true := by
              rw [goodChild_iff]
              refine ⟨⟨c0, by rw [Node.label_mk, hc0]⟩, by simp, ?_⟩
              rw [subWF_iff]
              refine ⟨by simp, by simp [hxy], ?_⟩
              rw [edgesWF_iff_forall]
              intro b c hm
              simp only [Node.edges_mk, List.mem_cons, List.mem_singleton] at hm
              rcases hm with hm | hm | hm
              · cases hm
                exact hgold
              · cases hm
                exact goodChild_fresh_key y ys v
              · simp at hm
            obtain ⟨hsw, hlen⟩ := subWF_merge_parent hwf hlook hgbridge
            refine ⟨by simp, by simp, by simp, by omega, hsw⟩

/-- The delete executor preserves structural well-formedness: replaying any
plan `capture` produces on a well-formed root yields a well-formed root. -/
theorem remove_preserves_rootWF {V : Type} {n : Node V} {tok : List Nat}
    {n' : Node V} {v : Option V} (hwf : rootWF n = true)
    (hrem : Node.remove n tok = some (n', v)) : rootWF n' = true := by
  obtain ⟨hlabN, htagN, hsubN⟩ := rootWF_iff.mp hwf
  unfold Node.remove at hrem
  match hcap : capture n tok with
  | none =>
    simp only [hcap] at hrem
    exact absurd hrem (by simp)
  | some none =>
    simp only [hcap, Option.some.injEq, Prod.mk.injEq] at hrem
    rw [← hrem.1]
    exact hwf
  | some (some replay) =>
    simp only [hcap] at hrem
    match htr : traverse n tok TraverseType.Fold with
    | none =>
      simp only [capture, htr] at hcap
      exact absurd hcap (by simp)
    | some none =>
      simp only [capture, htr] at hcap
      exact absurd hcap (by simp)
    | some (some res) =>
      obtain ⟨st, p, hres, htokne, hchain⟩ := traverse_fold_spec htr
      subst hres
      obtain ⟨fr', plab, hst, hck⟩ := chain_split hchain
      simp only [Nat.zero_add] at hst hck
      have hstl : st = (⟨p, 0, plab, fr'.length⟩ : TraverseItem V) :: fr'.reverse := by
        have h2 := congrArg List.reverse hst
        simpa using h2
      have hfrne : fr' ≠ [] := by
        intro he
        subst he
        simp only [List.nil_append] at hst
        rw [hst] at hchain
        exact htokne (chain_singleton hchain).1
      simp only [capture, htr, hstl] at hcap
      by_cases hpk : p.tag = NodeType.Key
      case neg =>
        -- terminal is not a key: the plan is keeps-only and replays to `n` itself
        rw [if_neg (by simp [Node.isKey, hpk])] at hcap
        rw [captureLoop_noop, keepsOf_reverse] at hcap
        simp only [List.reverse_reverse, List.append_nil] at hcap
        have hrepl := captureFinish_some_eq hcap
        subst hrepl
        rw [removeGo_keeps_id fr' n 0 p none hck] at hrem
        simp only [Option.some.injEq, Prod.mk.injEq] at hrem
        rw [← hrem.1]
        exact hwf
      case pos =>
        rw [if_pos (by simp [Node.isKey, hpk])] at hcap
        obtain ⟨fr'', A, k, albl, hfr, hckA, hlA⟩ := chainK_snoc hck hfrne
        simp only [Nat.zero_add] at hfr hckA
        have hL : fr'.length = fr''.length + 1 := by rw [hfr]; simp
        have hrev : fr'.reverse =
            (⟨A, k, albl, fr''.length⟩ : TraverseItem V) :: fr''.reverse := by
          rw [hfr]
          simp
        have hwfA : subWF A = true := chainK_subWF hckA hsubN
        have hgp : goodChild k p = true := goodChild_of_lookup hwfA hlA
        have hwfp : subWF p = true := (goodChild_iff.mp hgp).2.2
        have hArootTag : fr'' = [] → A = n := by
          intro he
          rw [he] at hckA
          cases hckA
          rfl
        match het : p.edgeType with
        | none =>
          -- terminal is a key leaf: prune it from its parent
          simp only [het] at hcap
          rw [hrev] at hcap
          by_cases hAk : A.tag = NodeType.Key
          case pos =>
            rw [captureLoop_prune_key _ _ _ (by simp [Node.isKey, hAk])] at hcap
            rw [keepsOf_reverse] at hcap
            simp only [List.reverse_reverse] at hcap
            have hrepl := captureFinish_some_eq hcap
            subst hrepl
            -- a Key ancestor cannot be the root
            by_cases hfr2 : fr'' = []
            · have hAn := hArootTag hfr2
              rw [hAn, htagN] at hAk
              exact absurd hAk (by simp)
            · have hbase : removeGo [Playback.Prune (Cursor.Link fr''.length k),
                  Playback.Unmark (Cursor.Node (fr''.length + 1))]
                  (0 + fr''.length) A none =
                  some (A.withEdges (alistRemove k A.edges), p.value) := by
                rw [Nat.zero_add]
                exact removeGo_prune_unmark_eq fr''.length k none hlA
              obtain ⟨m', hm'run, hm'lab, hm'tag, -, -, hm'wf⟩ :=
                removeGo_keeps fr'' n 0 A
                  [Playback.Prune (Cursor.Link fr''.length k),
                   Playback.Unmark (Cursor.Node (fr''.length + 1))]
                  none (A.withEdges (alistRemove k A.edges)) p.value
                  hckA hfr2 hsubN hbase
                  (fun b hg => goodChild_prune hlA (Or.inl hAk) hg)
              simp only [hL] at hrem
              rw [hm'run] at hrem
              simp only [Option.some.injEq, Prod.mk.injEq] at hrem
              rw [← hrem.1, rootWF_iff]
              exact ⟨hm'lab.trans hlabN, hm'tag.trans htagN, hm'wf⟩
          case neg =>
            have hAkey : A.isKey = false := by simp [Node.isKey, hAk]
            have hkmem : k ∈ A.edges.map Prod.fst := mem_keys_of_lookup hlA
            have hlen0 : A.edges.length ≠ 0 := by
              intro h0
              rw [List.length_eq_zero] at h0
              rw [h0] at hkmem
              simp at hkmem
            by_cases hA2 : A.edges.length = 2
            case neg =>
              rw [captureLoop_prune_nosec _ _ _ hAkey hlen0 hA2] at hcap
              rw [keepsOf_reverse] at hcap
              simp only [List.reverse_reverse] at hcap
              have hrepl := captureFinish_some_eq hcap
              subst hrepl
              by_cases hfr2 : fr'' = []
              · -- prune directly below the root
                have hAn := hArootTag hfr2
                subst hAn
                simp only [hL] at hrem
                subst hfr2
                simp only [keepsOf, List.map_nil, List.nil_append,
                  List.length_nil] at hrem
                rw [removeGo_prune_unmark_eq 0 k none hlA] at hrem
                simp only [Option.some.injEq, Prod.mk.injEq] at hrem
                rw [← hrem.1, rootWF_iff]
                exact ⟨by simpa using hlabN, by simpa using htagN,
                  subWF_remove_child k hsubN⟩
              · have hbase : removeGo [Playback.Prune (Cursor.Link fr''.length k),
                    Playback.Unmark (Cursor.Node (fr''.length + 1))]
                    (0 + fr''.length) A none =
                    some (A.withEdges (alistRemove k A.edges), p.value) := by
                  rw [Nat.zero_add]
                  exact removeGo_prune_unmark_eq fr''.length k none hlA
                obtain ⟨m', hm'run, hm'lab, hm'tag, -, -, hm'wf⟩ :=
                  removeGo_keeps fr'' n 0 A
                    [Playback.Prune (Cursor.Link fr''.length k),
                     Playback.Unmark (Cursor.Node (fr''.length + 1))]
                    none (A.withEdges (alistRemove k A.edges)) p.value
                    hckA hfr2 hsubN hbase
                    (fun b hg => goodChild_prune hlA (Or.inr hA2) hg)
                simp only [hL] at hrem
                rw [hm'run] at hrem
                simp only [Option.some.injEq, Prod.mk.injEq] at hrem
                rw [← hrem.1, rootWF_iff]
                exact ⟨hm'lab.trans hlabN, hm'tag.trans htagN, hm'wf⟩
            case pos =>
              -- the secondary merge fires at the parent
              have hndA : (A.edges.map Prod.fst).Nodup := (subWF_iff.mp hwfA).2.1
              obtain ⟨g, S, hg, hgne, hlS, hSmem⟩ := sibling_exists hndA hA2 hkmem
              rw [captureLoop_prune_sec _ _ _ hAkey hA2
                (by simpa [Node.edgesKeys] using hg)] at hcap
              by_cases hfr2 : fr'' = []
              · -- dangling MergeTemp: the executor panics, contradiction
                rw [hfr2] at hcap
                simp only [List.reverse_nil] at hcap
                rw [captureLoop_merge_nil] at hcap
                have hrepl := captureFinish_some_eq hcap
                subst hrepl
                rw [removeGo_mergeTemp_none] at hrem
                exact absurd hrem (by simp)
              · obtain ⟨fr₃, B, k₂, blab, hfr₃, hckB, hlB⟩ := chainK_snoc hckA hfr2
                simp only [Nat.zero_add] at hfr₃ hckB
                have hL2 : fr''.length = fr₃.length + 1 := by rw [hfr₃]; simp
                have hrev₃ : fr''.reverse =
                    (⟨B, k₂, blab, fr₃.length⟩ : TraverseItem V) :: fr₃.reverse := by
                  rw [hfr₃]
                  simp
                rw [hrev₃, captureLoop_merge_cons, keepsOf_reverse] at hcap
                simp only [List.reverse_reverse] at hcap
                have hrepl := captureFinish_some_eq hcap
                subst hrepl
                have hwfB : subWF B = true := chainK_subWF hckB hsubN
                have hgA : goodChild k₂ A = true := goodChild_of_lookup hwfB hlB
                obtain ⟨⟨lA, hAlab⟩, -, -⟩ := goodChild_iff.mp hgA
                have hgS : goodChild g S = true := goodChild_of_lookup hwfA hlS
                obtain ⟨⟨lS, hSlab⟩, -, -⟩ := goodChild_iff.mp hgS
                have hgSm : goodChild k₂
                    (⟨some ((k₂ :: lA) ++ (g :: lS)), S.value, S.tag, S.edges⟩ :
                      Node V) = true :=
                  goodChild_merged hgA hAlab hlS hSlab
                by_cases hfr3 : fr₃ = []
                · -- merge directly below the root
                  have hBn : B = n := by
                    rw [hfr3] at hckB
                    cases hckB
                    rfl
                  subst hBn
                  simp only [hL, hL2] at hrem
                  subst hfr3
                  simp only [keepsOf, List.map_nil, List.nil_append,
                    List.length_nil] at hrem
                  rw [removeGo_merge_prune_unmark_eq 0 k₂ g k none hlB hlS hAlab
                    hSlab (fun he => hgne he.symm) hlA] at hrem
                  simp only [Option.some.injEq, Prod.mk.injEq] at hrem
                  rw [← hrem.1, rootWF_iff]
                  exact ⟨by simpa using hlabN, by simpa using htagN,
                    (subWF_merge_parent hsubN hlB hgSm).1⟩
                · have hbase : removeGo
                      [Playback.Merge (Cursor.DoubleLink fr₃.length k₂ g),
                       Playback.Prune (Cursor.Link (fr₃.length + 1) k),
                       Playback.Unmark (Cursor.Node (fr₃.length + 1 + 1))]
                      (0 + fr₃.length) B none =
                      some (B.withEdges (alistInsert k₂
                        ⟨some ((k₂ :: lA) ++ (g :: lS)), S.value, S.tag, S.edges⟩
                        (alistRemove k₂ B.edges)), p.value) := by
                    rw [Nat.zero_add]
                    exact removeGo_merge_prune_unmark_eq fr₃.length k₂ g k none
                      hlB hlS hAlab hSlab (fun he => hgne he.symm) hlA
                  obtain ⟨m', hm'run, hm'lab, hm'tag, -, -, hm'wf⟩ :=
                    removeGo_keeps fr₃ n 0 B
                      [Playback.Merge (Cursor.DoubleLink fr₃.length k₂ g),
                       Playback.Prune (Cursor.Link (fr₃.length + 1) k),
                       Playback.Unmark (Cursor.Node (fr₃.length + 1 + 1))]
                      none (B.withEdges (alistInsert k₂
                        ⟨some ((k₂ :: lA) ++ (g :: lS)), S.value, S.tag, S.edges⟩
                        (alistRemove k₂ B.edges))) p.value
                      hckB hfr3 hsubN hbase
                      (fun b hg => goodChild_merge_transport hwfB hlB hgSm hg)
                  simp only [hL, hL2] at hrem
                  rw [hm'run] at hrem
                  simp only [Option.some.injEq, Prod.mk.injEq] at hrem
                  rw [← hrem.1, rootWF_iff]
                  exact ⟨hm'lab.trans hlabN, hm'tag.trans htagN, hm'wf⟩
        | some EdgeType.Single =>
          -- terminal is a key with one child: merge it into the child
          have hp1 : p.edges.length = 1 := edgeType_eq_single_iff.mp het
          obtain ⟨g, S, hpe, hglast, hlS⟩ := single_child hp1
          simp only [het] at hcap
          simp only [show p.edgesKeys.getLast? = some g from by
            simpa [Node.edgesKeys] using hglast] at hcap
          rw [hrev] at hcap
          rw [captureLoop_merge_cons, keepsOf_reverse] at hcap
          simp only [List.reverse_reverse] at hcap
          have hrepl := captureFinish_some_eq hcap
          subst hrepl
          obtain ⟨⟨lp, hplab⟩, -, -⟩ := goodChild_iff.mp hgp
          have hgS : goodChild g S = true := goodChild_of_lookup hwfp hlS
          obtain ⟨⟨lS, hSlab⟩, -, -⟩ := goodChild_iff.mp hgS
          have hgSm : goodChild k
              (⟨some ((k :: lp) ++ (g :: lS)), S.value, S.tag, S.edges⟩ :
                Node V) = true :=
            goodChild_merged hgp hplab hlS hSlab
          by_cases hfr2 : fr'' = []
          · have hAn := hArootTag hfr2
            subst hAn
            simp only [hL] at hrem
            subst hfr2
            simp only [keepsOf, List.map_nil, List.nil_append,
              List.length_nil] at hrem
            rw [removeGo_merge_unmark_eq 0 k g none hlA hlS hplab hSlab] at hrem
            simp only [Option.some.injEq, Prod.mk.injEq] at hrem
            rw [← hrem.1, rootWF_iff]
            exact ⟨by simpa using hlabN, by simpa using htagN,
              (subWF_merge_parent hsubN hlA hgSm).1⟩
          · have hbase : removeGo
                [Playback.Merge (Cursor.DoubleLink fr''.length k g),
                 Playback.Unmark (Cursor.Node (fr''.length + 1))]
                (0 + fr''.length) A none =
                some (A.withEdges (alistInsert k
                  ⟨some ((k :: lp) ++ (g :: lS)), S.value, S.tag, S.edges⟩
                  (alistRemove k A.edges)), p.value) := by
              rw [Nat.zero_add]
              exact removeGo_merge_unmark_eq fr''.length k g none hlA hlS hplab hSlab
            obtain ⟨m', hm'run, hm'lab, hm'tag, -, -, hm'wf⟩ :=
              removeGo_keeps fr'' n 0 A
                [Playback.Merge (Cursor.DoubleLink fr''.length k g),
                 Playback.Unmark (Cursor.Node (fr''.length + 1))]
                none (A.withEdges (alistInsert k
                  ⟨some ((k :: lp) ++ (g :: lS)), S.value, S.tag, S.edges⟩
                  (alistRemove k A.edges))) p.value
                hckA hfr2 hsubN hbase
                (fun b hg => goodChild_merge_transport hwfA hlA hgSm hg)
            simp only [hL] at hrem
            rw [hm'run] at hrem
            simp only [Option.some.injEq, Prod.mk.injEq] at hrem
            rw [← hrem.1, rootWF_iff]
            exact ⟨hm'lab.trans hlabN, hm'tag.trans htagN, hm'wf⟩
        | some (EdgeType.Branching b) =>
          -- terminal is a branching key: just unmark it in place
          have hpb := edgeType_eq_branching_iff.mp het
          simp only [het] at hcap
          rw [captureLoop_noop, keepsOf_reverse] at hcap
          simp only [List.reverse_reverse] at hcap
          have hrepl := captureFinish_some_eq hcap
          subst hrepl
          have hbase : removeGo [Playback.Unmark (Cursor.Node fr'.length)]
              (0 + fr'.length) p none =
              some (⟨p.label, none, NodeType.Inner, p.edges⟩, p.value) := by
            rw [Nat.zero_add]
            exact removeGo_unmark_eq fr'.length p none
          obtain ⟨m', hm'run, hm'lab, hm'tag, -, -, hm'wf⟩ :=
            removeGo_keeps fr' n 0 p [Playback.Unmark (Cursor.Node fr'.length)]
              none (⟨p.label, none, NodeType.Inner, p.edges⟩ : Node V) p.value
              hck hfrne hsubN hbase
              (fun b' hg => goodChild_unmark (hpb.1 ▸ hpb.2) hg)
          rw [hm'run] at hrem
          simp only [Option.some.injEq, Prod.mk.injEq] at hrem
          rw [← hrem.1, rootWF_iff]
          exact ⟨hm'lab.trans hlabN, hm'tag.trans htagN, hm'wf⟩

/-- Removing a token whose terminal node is not a key replays a keeps-only
plan and hands back the tree unchanged. -/
theorem remove_not_key_id {V : Type} {n : Node V} {tok : List Nat}
    (hwf : rootWF n = true) (hne : tok ≠ []) (hns : tok ∉ Node.subKeys n) :
    Node.remove n tok = some (n, none) := by
  obtain ⟨hlabN, htagN, hsubN⟩ := rootWF_iff.mp hwf
  unfold Node.remove
  match htr : traverse n tok TraverseType.Fold with
  | none => exact absurd htr (traverse_no_panic hsubN hne _)
  | some none =>
    have hcap : capture n tok = some none := by
      simp only [capture, htr]
    simp only [hcap]
  | some (some res) =>
    obtain ⟨st, p, hres, -, hchain⟩ := traverse_fold_spec htr
    subst hres
    obtain ⟨fr', plab, hst, hck⟩ := chain_split hchain
    simp only [Nat.zero_add] at hst hck
    have hstl : st = (⟨p, 0, plab, fr'.length⟩ : TraverseItem V) :: fr'.reverse := by
      have h2 := congrArg List.reverse hst
      simpa using h2
    have hfrne : fr' ≠ [] := by
      intro he
      subst he
      simp only [List.nil_append] at hst
      rw [hst] at hchain
      exact hne (chain_singleton hchain).1
    have hpk : ¬p.tag = NodeType.Key := by
      intro hk
      exact hns (pathTo_key_mem (chain_pathTo hchain) hk)
    have hcap : capture n tok = some (some (keepsOf fr')) := by
      simp only [capture, htr, hstl]
      rw [if_neg (by simp [Node.isKey, hpk])]
      rw [captureLoop_noop, keepsOf_reverse]
      simp only [List.reverse_reverse, List.append_nil]
      simp only [captureFinish]
      rw [if_neg (by simp [keepsOf, List.isEmpty_iff, hfrne])]
    simp only [hcap]
    exact removeGo_keeps_id fr' n 0 p none hck

theorem trie_eta {V : Type} (t : Trie V) : (⟨t.size, t.root⟩ : Trie V) = t := by
  obtain ⟨s, r⟩ := t
  rfl

/-! ## Well-formedness along operation sequences -/

theorem insert_preserves_rootWF {V : Type} {n : Node V} {tok : List Nat} {v : V}
    {n' : Node V} {res : Option V} (hwf : rootWF n = true)
    (hins : Node.insert n tok v = some (n', res)) : rootWF n' = true := by
  obtain ⟨hlab, htag, hsub⟩ := rootWF_iff.mp hwf
  unfold Node.insert at hins
  by_cases he : tok.isEmpty = true
  · rw [if_pos he] at hins
    simp only [Option.some.injEq, Prod.mk.injEq] at hins
    rw [← hins.1]
    exact hwf
  · rw [if_neg he] at hins
    have hne : tok ≠ [] := by simpa [List.isEmpty_iff] using he
    obtain ⟨hl, ht, -, -, hs⟩ :=
      insertGo_preserves (tok.length + 1) n tok v n' res hsub hne hins
    rw [rootWF_iff]
    exact ⟨hl.trans hlab, ht.trans htag, hs⟩

theorem trie_insert_preserves_wf {V : Type} {t : Trie V} {tok : List Nat} {v : V}
    {t' : Trie V} {res : Option V} (hwf : trieWF t = true)
    (hins : Trie.insert t tok v = some (t', res)) : trieWF t' = true := by
  unfold Trie.insert at hins
  match hr : t.root with
  | none =>
    simp only [hr] at hins
    match hni : Node.insert (Node.dflt : Node V) tok v with
    | none =>
      simp only [hni] at hins
      exact absurd hins (by simp)
    | some (r', result) =>
      simp only [hni, Option.some.injEq, Prod.mk.injEq] at hins
      rw [← hins.1]
      have : rootWF r' = true := insert_preserves_rootWF (by rfl) hni
      simpa [trieWF] using this
  | some r =>
    simp only [hr] at hins
    have hrwf : rootWF r = true := by
      unfold trieWF at hwf
      rw [hr] at hwf
      exact hwf
    match hni : Node.insert r tok v with
    | none =>
      simp only [hni] at hins
      exact absurd hins (by simp)
    | some (r', result) =>
      simp only [hni, Option.some.injEq, Prod.mk.injEq] at hins
      rw [← hins.1]
      have : rootWF r' = true := insert_preserves_rootWF hrwf hni
      simpa [trieWF] using this

theorem trie_remove_preserves_wf {V : Type} {t : Trie V} {tok : List Nat}
    {t' : Trie V} {res : Option V} (hwf : trieWF t = true)
    (hrem : Trie.remove t tok = some (t', res)) : trieWF t' = true := by
  unfold Trie.remove at hrem
  match hr : t.root with
  | none =>
    simp only [hr, Option.some.injEq, Prod.mk.injEq] at hrem
    rw [← hrem.1]
    exact hwf
  | some r =>
    simp only [hr] at hrem
    have hrwf : rootWF r = true := by
      unfold trieWF at hwf
      rw [hr] at hwf
      exact hwf
    match hnr : Node.remove r tok with
    | none =>
      simp only [hnr] at hrem
      exact absurd hrem (by simp)
    | some (r', result) =>
      simp only [hnr, Option.some.injEq, Prod.mk.injEq] at hrem
      rw [← hrem.1]
      have : rootWF r' = true := remove_preserves_rootWF hrwf hnr
      simpa [trieWF] using this

theorem applyOps_preserves_wf {V : Type} :
    ∀ (ops : List (Op V)) (t t' : Trie V), trieWF t = true →
      applyOps t ops = some t' → trieWF t' = true := by
  intro ops
  induction ops with
  | nil =>
    intro t t' hwf h
    simp only [applyOps, Option.some.injEq] at h
    rw [← h]
    exact hwf
  | cons op rest ih =>
    intro t t' hwf h
    match op with
    | Op.ins tok v =>
      simp only [applyOps] at h
      match hi : Trie.insert t tok v with
      | none =>
        simp only [hi] at h
        exact absurd h (by simp)
      | some (t₁, res) =>
        simp only [hi] at h
        exact ih t₁ t' (trie_insert_preserves_wf hwf hi) h
    | Op.del tok =>
      simp only [applyOps] at h
      match hd : Trie.remove t tok with
      | none =>
        simp only [hd] at h
        exact absurd h (by simp)
      | some (t₁, res) =>
        simp only [hd] at h
        exact ih t₁ t' (trie_remove_preserves_wf hwf hd) h

/-! ## The structural invariants imply claim C5's two properties -/

theorem c5_list {V : Type} :
    ∀ e : List (Nat × Node V),
      (∀ b c, (b, c) ∈ e → subWF c = true →
        nonRootLabelsOK c = true ∧ compressionOK c = true) →
      edgesWF e = true →
      nonRootLabelsOKList e = true ∧ compressionOKList e = true := by
  intro e
  induction e with
  | nil => intro _ _; exact ⟨rfl, rfl⟩
  | cons hd rest ihl =>
    obtain ⟨b, c⟩ := hd
    intro hmem hew
    rw [edgesWF_cons, Bool.and_eq_true] at hew
    obtain ⟨hgc, hrest⟩ := hew
    obtain ⟨⟨lc, hlc⟩, hcomp, hcwf⟩ := goodChild_iff.mp hgc
    obtain ⟨h1, h2⟩ := hmem b c (List.mem_cons_self _ _) hcwf
    obtain ⟨h3, h4⟩ :=
      ihl (fun b' c' hm' => hmem b' c' (List.mem_cons_of_mem _ hm')) hrest
    constructor
    · simp [nonRootLabelsOKList, hlc, h1, h3]
    · cases htag : c.tag with
      | Inner => simp [compressionOKList, htag, h2, h4, hcomp htag]
      | Key => simp [compressionOKList, htag, h2, h4]

theorem c5_of_subWF {V : Type} :
    ∀ n : Node V, subWF n = true →
      nonRootLabelsOK n = true ∧ compressionOK n = true := by
  intro n
  induction n using Node.ind with
  | _ l v t edges ih =>
    intro hwf
    have hew : edgesWF edges = true := by
      have h := (subWF_iff.mp hwf).2.2
      simpa using h
    exact c5_list edges ih hew

/-! ## Search and insert along a stored path -/

theorem pathTo_nil {V : Type} {c p : Node V} {tok : List Nat}
    (h : PathTo c tok p) (htok : tok = []) : p = c := by
  cases h with
  | refl => rfl
  | step n k c' lab rest p' hl hlab hhd hp =>
    have hnil : lab = [] := (List.append_eq_nil.mp htok).1
    rw [hnil] at hhd
    simp at hhd

/-- `traverse_match` at a node whose child's full label is a prefix of the
token: the common part is the whole label and the leftover is the remaining
token suffix. -/
theorem traverseMatch_path_step {V : Type} {n c : Node V} {k : Nat}
    {lab : List Nat} (rest : List Nat)
    (hl : alistLookup k n.edges = some c) (hlab : c.label = some lab)
    (hhd : lab.head? = some k) :
    traverseMatch n (lab ++ rest) =
      some (some ⟨c, lab, SuffixType.new [] rest, k⟩) := by
  match lab, hhd with
  | k0 :: lab', hhd =>
    have hk0 : k0 = k := by simpa using hhd
    subst hk0
    simp only [List.cons_append, traverseMatch, Node.lookupEdge, hl, hlab]
    have hcpl : commonPrefixLen (k0 :: (lab' ++ rest)) (k0 :: lab') =
        lab'.length + 1 := by
      have h2 := commonPrefixLen_append (k0 :: lab') rest []
      rw [List.append_nil, commonPrefixLen_nil_right] at h2
      simpa using h2
    rw [hcpl]
    have hlen : lab'.length + 1 = (k0 :: lab').length := by simp
    rw [hlen, List.take_length, List.drop_length, ← List.cons_append,
      List.drop_left]
    rw [if_neg (by simp)]

/-- A `Search` traversal follows a stored path to its end node, leaving the
stack untouched. -/
theorem traverseGo_search_path {V : Type} {n : Node V} {tok : List Nat}
    {p : Node V} (hpath : PathTo n tok p) :
    ∀ (fuel : Nat) (stack : List (TraverseItem V)) (lvl : Nat), tok ≠ [] →
      tok.length < fuel →
      traverseGo fuel n tok TraverseType.Search stack lvl =
        some (some ⟨p, none, stack⟩) := by
  induction hpath with
  | refl n0 =>
    intro fuel stack lvl hne _
    exact absurd rfl hne
  | step n0 k c lab rest p0 hl hlab hhd hp ih =>
    intro fuel stack lvl hne hfuel
    cases fuel with
    | zero => exact absurd hfuel (by omega)
    | succ fuel₁ =>
      have htm := traverseMatch_path_step rest hl hlab hhd
      have hlablen : 1 ≤ lab.length := by
        match lab, hhd with
        | l0 :: ls, _ => simp
      by_cases hr : rest = []
      · subst hr
        have hpc : p0 = c := pathTo_nil hp rfl
        rw [hpc]
        simp only [List.append_nil] at htm ⊢
        simp only [traverseGo, htm, SuffixType.new, traverseFoldHelper]
      · have hnew : SuffixType.new [] rest = SuffixType.OnlyToken rest := by
          match rest, hr with
          | r0 :: rs, _ => rfl
        simp only [traverseGo, htm, hnew, traverseFoldHelper]
        refine ih fuel₁ stack (lvl + 1) hr ?_
        rw [List.length_append] at hfuel
        omega

/-- Conversely, a successful `Search` traversal that ends in a `Terminal`
(no partial-terminal slot) has walked a stored path. -/
theorem traverseGo_search_some {V : Type} :
    ∀ (fuel : Nat) (n : Node V) (tok : List Nat) (stack : List (TraverseItem V))
      (lvl : Nat) (out : TraverseLoopOut V),
      traverseGo fuel n tok TraverseType.Search stack lvl = some (some out) →
      out.partTerminal = none →
      PathTo n tok out.current := by
  intro fuel
  induction fuel with
  | zero =>
    intro n tok stack lvl out h hpt
    exact absurd h (by simp [traverseGo])
  | succ fuel ih =>
    intro n tok stack lvl out h hpt
    match htm : traverseMatch n tok with
    | none =>
      simp only [traverseGo, htm] at h
      exact absurd h (by simp)
    | some none =>
      simp only [traverseGo, htm] at h
      exact absurd h (by simp)
    | some (some km) =>
      match hlo : km.leftover with
      | SuffixType.Empty =>
        obtain ⟨hne, hhd, hl, hlab, hcom⟩ := traverseMatch_empty_decomp htm hlo
        simp only [traverseGo, htm, hlo, traverseFoldHelper,
          Option.some.injEq] at h
        rw [← h]
        have hstep := PathTo.step n km.edgeKey km.next tok [] km.next hl hlab
          (by simpa using hhd) (PathTo.refl _)
        simpa using hstep
      | SuffixType.OnlyToken sufx =>
        obtain ⟨hhd, hl, hlab, htokeq, hsne, hcne⟩ :=
          traverseMatch_onlyToken_decomp htm hlo
        simp only [traverseGo, htm, hlo, traverseFoldHelper] at h
        have hih := ih km.next sufx stack (lvl + 1) out h hpt
        rw [htokeq]
        refine PathTo.step n km.edgeKey km.next km.common sufx out.current hl
          hlab ?_ hih
        rw [htokeq] at hhd
        match hc : km.common, hcne with
        | c0 :: cr, _ =>
          rw [hc] at hhd
          simp only [List.cons_append, List.head?_cons, Option.mem_def,
            Option.some.injEq] at hhd
          simp [hhd]
      | SuffixType.OnlyEdge sufx =>
        simp only [traverseGo, htm, hlo, Option.some.injEq] at h
        rw [← h] at hpt
        simp at hpt
      | SuffixType.BothEdgeToken se st =>
        simp only [traverseGo, htm, hlo] at h
        exact absurd h (by simp)

/-- `Node::search` along a stored path to a key node returns its value. -/
theorem search_of_pathTo {V : Type} {n : Node V} {tok : List Nat} {p : Node V}
    (hne : tok ≠ []) (hpath : PathTo n tok p) (hk : p.tag = NodeType.Key) :
    Node.search n tok = some p.value := by
  unfold Node.search
  have hgo := traverseGo_search_path hpath (tok.length + 1) [⟨n, 0, none, 0⟩] 0
    hne (by omega)
  simp only [traverse, hgo]
  simp [Node.isKey, hk]

/-- Extracting the stored path from a successful `Node::search`. -/
theorem search_some_pathTo {V : Type} {n : Node V} {tok : List Nat} {v1 : V}
    (h : Node.search n tok = some (some v1)) :
    ∃ p, PathTo n tok p ∧ p.tag = NodeType.Key ∧ p.value = some v1 ∧
      tok ≠ [] := by
  unfold Node.search at h
  match hgo : traverseGo (tok.length + 1) n tok TraverseType.Search
      [⟨n, 0, none, 0⟩] 0 with
  | none =>
    simp only [traverse, hgo] at h
    exact absurd h (by simp)
  | some none =>
    simp only [traverse, hgo] at h
    exact absurd h (by simp)
  | some (some out) =>
    simp only [traverse, hgo] at h
    match hpt : out.partTerminal with
    | some sufx =>
      rw [hpt] at h
      simp at h
    | none =>
      rw [hpt] at h
      match hik : out.current.isKey with
      | false =>
        rw [hik] at h
        simp at h
      | true =>
        rw [hik] at h
        simp only [Option.some.injEq] at h
        have hpath := traverseGo_search_some (tok.length + 1) n tok _ 0 out hgo hpt
        have htne : tok ≠ [] := by
          intro he
          subst he
          simp [traverseGo, traverseMatch] at hgo
        exact ⟨out.current, hpath, by simpa [Node.isKey] using hik, h, htne⟩

/-- Inserting a token that is already stored swaps the value in place: the
returned node keeps the target's label and edge list, the old value comes
back, and the surrounding tree keeps its shape. -/
theorem insertGo_existing_key {V : Type} {n : Node V} {tok : List Nat}
    {p : Node V} (hpath : PathTo n tok p) :
    ∀ (fuel : Nat) (v2 : V), subWF n = true → tok ≠ [] → tok.length < fuel →
      p.tag = NodeType.Key →
      ∃ n', insertGo fuel n tok v2 = some (n', p.value) ∧
        PathTo n' tok (⟨p.label, some v2, NodeType.Key, p.edges⟩ : Node V) ∧
        n'.label = n.label ∧ n'.tag = n.tag ∧ n'.value = n.value ∧
        n'.edges.length = n.edges.length ∧ subWF n' = true := by
  induction hpath with
  | refl n0 =>
    intro fuel v2 _ hne _ _
    exact absurd rfl hne
  | step n0 k c lab rest p0 hl hlab hhd hp ih =>
    intro fuel v2 hwf hne hfuel hk
    cases fuel with
    | zero => exact absurd hfuel (by omega)
    | succ fuel₁ =>
      have htm := traverseMatch_path_step rest hl hlab hhd
      have hgc : goodChild k c = true := goodChild_of_lookup hwf hl
      have hwfc : subWF c = true := (goodChild_iff.mp hgc).2.2
      have hlablen : 1 ≤ lab.length := by
        match lab, hhd with
        | l0 :: ls, _ => simp
      by_cases hr : rest = []
      · subst hr
        have hpc : p0 = c := pathTo_nil hp rfl
        rw [hpc] at hk ⊢
        simp only [List.append_nil] at htm ⊢
        have hgc' : goodChild k
            (⟨c.label, some v2, NodeType.Key, c.edges⟩ : Node V) = true :=
          goodChild_finalize v2 hgc
        obtain ⟨hsw, hlen⟩ := subWF_update_child hwf hl hgc'
        refine ⟨n0.withEdges (alistInsert k
          (⟨c.label, some v2, NodeType.Key, c.edges⟩ : Node V) n0.edges),
          ?_, ?_, by simp, by simp, by simp, by simpa using hlen, hsw⟩
        · simp only [insertGo, htm, SuffixType.new, Node.lookupEdge, hl,
            finalizeInsert, hk]
        · have hstep := PathTo.step
            (n0.withEdges (alistInsert k
              (⟨c.label, some v2, NodeType.Key, c.edges⟩ : Node V) n0.edges))
            k (⟨c.label, some v2, NodeType.Key, c.edges⟩ : Node V) lab []
            (⟨c.label, some v2, NodeType.Key, c.edges⟩ : Node V)
            (by simp only [withEdges_edges]; exact alistLookup_insert_self _ _ _)
            (by simpa using hlab) hhd (PathTo.refl _)
          simpa using hstep
      · have hnew : SuffixType.new [] rest = SuffixType.OnlyToken rest := by
          match rest, hr with
          | r0 :: rs, _ => rfl
        obtain ⟨c', hrun, hpath', hclab, hctag, hcval, hclen, hcwf⟩ :=
          ih fuel₁ v2 hwfc hr (by rw [List.length_append] at hfuel; omega) hk
        have hgc' : goodChild k c' = true :=
          goodChild_of_preserved hgc hclab hctag hclen hcwf
        obtain ⟨hsw, hlen⟩ := subWF_update_child hwf hl hgc'
        refine ⟨n0.withEdges (alistInsert k c' n0.edges), ?_, ?_, by simp,
          by simp, by simp, by simpa using hlen, hsw⟩
        · simp only [insertGo, htm, hnew, Node.lookupEdge, hl, hrun]
        · exact PathTo.step _ k c' lab rest _
            (by simp only [withEdges_edges]; exact alistLookup_insert_self _ _ _)
            (by rw [hclab, hlab]) hhd hpath'

/-- `Node::insert` over an already-stored key: value swap in place. -/
theorem insert_existing_key {V : Type} {n : Node V} {tok : List Nat} {v1 : V}
    (v2 : V) (hwf : subWF n = true) (hs : Node.search n tok = some (some v1)) :
    ∃ n' p, Node.insert n tok v2 = some (n', some v1) ∧
      PathTo n tok p ∧ p.value = some v1 ∧ p.tag = NodeType.Key ∧
      PathTo n' tok (⟨p.label, some v2, NodeType.Key, p.edges⟩ : Node V) ∧
      Node.search n' tok = some (some v2) ∧
      n'.label = n.label ∧ n'.tag = n.tag ∧ n'.value = n.value ∧
      n'.edges.length = n.edges.length ∧ subWF n' = true := by
  obtain ⟨p, hpath, hk, hv, hne⟩ := search_some_pathTo hs
  obtain ⟨n', hrun, hpath', hlab, htag, hval, hlen, hwf'⟩ :=
    insertGo_existing_key hpath (tok.length + 1) v2 hwf hne (by omega) hk
  refine ⟨n', p, ?_, hpath, hv, hk, hpath', ?_, hlab, htag, hval, hlen, hwf'⟩
  · unfold Node.insert
    rw [if_neg (by simpa [List.isEmpty_iff] using hne)]
    rw [hrun, hv]
  · have hsrch := search_of_pathTo hne hpath' rfl
    simpa using hsrch

/-! # Claim theorems -/

/-! ## C1: empty token to insert -/

/-- C1: the claim states that inserting with an empty token returns none,
performs no mutation (in particular no root is created if none existed) and
leaves the size counter unchanged.  Evaluating `Trie::insert` with the empty
token on the fresh handle shows the call does return `None`, but it creates
a root node and increments the size counter from 0 to 1 — `Trie::insert`
materializes a default root before the empty-token check in `Node::insert`,
and bumps `size` because the result is `None` (`src/trie.rs` lines 29–44). -/
theorem c1_empty_insert_mutates :
    Trie.insert (V := Nat) Trie.new [] 5 =
      some ({ size := 1, root := some Node.dflt }, none) ∧
    (Trie.new (V := Nat)).size = 0 ∧ (Trie.new (V := Nat)).root = none :=
  ⟨rfl, rfl, rfl⟩

/-! ## C2: empty token to search/remove -/

/-- C2: the claim states that search and remove with an empty token return
none for every trie state.  On any trie with a root (here the one holding
the single key `[97]`), both panic instead: `traverse_match` evaluates
`token[0]` on the empty slice (`src/traverse.rs` line 74), an out-of-bounds
index.  The first two conjuncts show the panic (modelled as `none`); the
third shows the trie itself was built without panicking. -/
theorem c2_empty_search_remove_panics :
    ((trieFromList [([97], (1 : Nat))]).bind (fun t => t.search [])) = none ∧
    ((trieFromList [([97], (1 : Nat))]).bind (fun t => t.remove [])) = none ∧
    (trieFromList [([97], (1 : Nat))]).isSome = true :=
  ⟨rfl, rfl, rfl⟩

/-! ## C4: iterator `size_hint` -/

/-- C4: the claim states that every iterator's `size_hint` equals the number
of key nodes (the handle's size counter at construction).  In the source,
the `Iterator` impls for all six public iterator types define only `next`,
so `size_hint()` resolves to the trait default `(0, None)`; the
`(size, Some(size))` body (`src/iter.rs` lines 158–162) is an inherent
method on the private `NodeDFSIter` that nothing calls.  On a one-key trie
(size counter 1): every public iterator reports `(0, none)`, while the dead
inner method would report `(1, some 1)`. -/
theorem c4_size_hint_is_default :
    ((trieFromList [([97], (1 : Nat))]).map (fun t => t.labels.iterSizeHint)) =
      some (0, none) ∧
    ((trieFromList [([97], (1 : Nat))]).map (fun t => t.values.iterSizeHint)) =
      some (0, none) ∧
    ((trieFromList [([97], (1 : Nat))]).map (fun t => t.valuesMut.iterSizeHint)) =
      some (0, none) ∧
    ((trieFromList [([97], (1 : Nat))]).map (fun t => t.iterPairs.iterSizeHint)) =
      some (0, none) ∧
    ((trieFromList [([97], (1 : Nat))]).map (fun t => t.iterPairsMut.iterSizeHint)) =
      some (0, none) ∧
    ((trieFromList [([97], (1 : Nat))]).map (fun t => t.intoIter.iterSizeHint)) =
      some (0, none) ∧
    ((trieFromList [([97], (1 : Nat))]).map (fun t => t.size)) = some 1 ∧
    ((trieFromList [([97], (1 : Nat))]).map (fun t => t.labels.base.sizeHint)) =
      some (1, some 1) :=
  ⟨rfl, rfl, rfl, rfl, rfl, rfl, rfl, rfl⟩

/-! ## C6: remove is the left inverse of insert -/

/-- C6: the claim states that for every trie, inserting a fresh non-empty
key `k` and then removing it returns the inserted value.  Start from the
trie holding only `[98]`, insert the fresh key `[97]` (the insert returns
`None`, confirming the key was fresh, and the size becomes 2); the
subsequent `remove([97])` panics instead of returning `Some 1`: the planner
pushes a trailing `MergeTemp` when the pruned node's parent is the root with
exactly two edges, and the executor's catch-all `unreachable!()` arm pops it
first (see C9).  The final conjunct certifies the pre-remove trie satisfies
the structural invariants. -/
theorem c6_remove_not_left_inverse :
    ((trieFromList [([98], (2 : Nat))]).bind (fun t => t.insert [97] 1)).map
        (fun p => (p.1.size, p.2)) = some (2, none) ∧
    ((trieFromList [([98], (2 : Nat))]).bind (fun t => (t.insert [97] 1).map Prod.fst)).bind
        (fun t => t.remove [97]) = none ∧
    ((trieFromList [([98], (2 : Nat))]).bind (fun t => (t.insert [97] 1).map Prod.fst)).map
        trieWF = some true :=
  ⟨rfl, rfl, by decide⟩

/-! ## C9: executor directives always match -/

/-- C9: the claim states that for every invariant-satisfying trie and
non-empty prefix, every directive popped by the executor matches one of the
four expected forms with the right level, so the `unreachable!()` arm is
dead.  Counterexample: on the two-key trie `{[97], [98]}` (which satisfies
the invariants — third conjunct), the plan `capture` produces for removing
`[97]` ends with a dangling `MergeTemp 98`: the secondary-merge trigger in
`src/delete.rs` (lines 134–150) fires at the root frame (root is `Inner`
with exactly two edges) but no further frame remains to convert the
`MergeTemp` into a `Merge`.  The executor pops it first (our plan lists are
written in execution order, head first) and takes the `unreachable!()` arm,
so `remove` panics (second conjunct). -/
theorem c9_merge_temp_reaches_unreachable :
    ((trieFromList [([97], (1 : Nat)), ([98], 2)]).bind
        (fun t => t.root.bind (fun r => capture r [97]))) =
      some (some [Playback.MergeTemp 98, Playback.Prune (Cursor.Link 0 97),
                  Playback.Unmark (Cursor.Node 1)]) ∧
    ((trieFromList [([97], (1 : Nat)), ([98], 2)]).bind (fun t => t.remove [97])) = none ∧
    ((trieFromList [([97], (1 : Nat)), ([98], 2)]).map trieWF) = some true :=
  ⟨rfl, rfl, by decide⟩

/-! ## C5: radix-compression invariants -/

/-- C5: after every sequence of insert and remove operations starting from
the empty trie (every sequence the program completes without panicking),
every non-root node of the resulting tree has a present, non-empty label,
and no `Inner` node other than the root has fewer than two outgoing edges.
Proved by showing insert and remove each preserve the structural
well-formedness predicate (which the empty trie satisfies) and that this
predicate entails both claimed properties on the whole tree. -/
theorem c5_invariants_after_ops {V : Type} (ops : List (Op V)) (t : Trie V)
    (r : Node V) (hops : applyOps Trie.new ops = some t) (hr : t.root = some r) :
    nonRootLabelsOK r = true ∧ compressionOK r = true := by
  have hwf : trieWF t = true := applyOps_preserves_wf ops Trie.new t rfl hops
  unfold trieWF at hwf
  rw [hr] at hwf
  exact c5_of_subWF r (rootWF_iff.mp hwf).2.2

/-- C5 witness: insert `[97]` then `[97, 98]` from the empty trie; the
resulting two-node tree satisfies both claimed properties. -/
theorem c5_invariants_after_ops_witness :
    nonRootLabelsOK (⟨none, none, NodeType.Inner,
        [(97, ⟨some [97], some 1, NodeType.Key,
          [(98, ⟨some [98], some 2, NodeType.Key, []⟩)]⟩)]⟩ : Node Nat) = true ∧
    compressionOK (⟨none, none, NodeType.Inner,
        [(97, ⟨some [97], some 1, NodeType.Key,
          [(98, ⟨some [98], some 2, NodeType.Key, []⟩)]⟩)]⟩ : Node Nat) = true :=
  c5_invariants_after_ops [Op.ins [97] 1, Op.ins [97, 98] 2]
    ⟨2, some ⟨none, none, NodeType.Inner,
      [(97, ⟨some [97], some 1, NodeType.Key,
        [(98, ⟨some [98], some 2, NodeType.Key, []⟩)]⟩)]⟩⟩
    ⟨none, none, NodeType.Inner,
      [(97, ⟨some [97], some 1, NodeType.Key,
        [(98, ⟨some [98], some 2, NodeType.Key, []⟩)]⟩)]⟩
    (by rfl) rfl

/-! ## C8: insert over an existing key swaps the value in place -/

/-- C8: for every structurally well-formed trie storing key `tok` with value
`v1`, inserting `(tok, v2)` returns `some v1`, leaves the size counter
unchanged, makes a subsequent search return `v2`, and replaces the target
node by one with the same label and the same edge list (children preserved):
the old tree reaches a key node `p` along `tok`, and the new tree reaches
exactly `⟨p.label, some v2, Key, p.edges⟩` along the same path. -/
theorem c8_insert_existing {V : Type} (t : Trie V) (tok : List Nat) (v1 v2 : V)
    (hwf : trieWF t = true) (hs : Trie.search t tok = some (some v1)) :
    ∃ t', Trie.insert t tok v2 = some (t', some v1) ∧
      Trie.search t' tok = some (some v2) ∧ t'.size = t.size ∧
      ∃ r r' p, t.root = some r ∧ t'.root = some r' ∧
        PathTo r tok p ∧ p.value = some v1 ∧ p.tag = NodeType.Key ∧
        PathTo r' tok (⟨p.label, some v2, NodeType.Key, p.edges⟩ : Node V) := by
  match hr : t.root with
  | none =>
    unfold Trie.search at hs
    rw [hr] at hs
    exact absurd hs (by simp)
  | some r =>
    have hsub : subWF r = true := by
      unfold trieWF at hwf
      rw [hr] at hwf
      exact (rootWF_iff.mp hwf).2.2
    have hs' : Node.search r tok = some (some v1) := by
      unfold Trie.search at hs
      rw [hr] at hs
      exact hs
    obtain ⟨r', p, hrun, hpath, hv, hk, hpath', hsearch', -, -, -, -, -⟩ :=
      insert_existing_key v2 hsub hs'
    refine ⟨⟨t.size, some r'⟩, ?_, hsearch', rfl, r, r', p, rfl, rfl, hpath, hv,
      hk, hpath'⟩
    unfold Trie.insert
    simp only [hr, hrun]
    simp

/-- C8 witness: on the trie holding the single key `[97]` with value `5`,
inserting `([97], 9)` returns `some 5`, search then yields `9`, the size
stays `1`, and the target keeps its label and (empty) edge list. -/
theorem c8_insert_existing_witness :
    ∃ t', Trie.insert (⟨1, some ⟨none, none, NodeType.Inner,
        [(97, ⟨some [97], some 5, NodeType.Key, []⟩)]⟩⟩ : Trie Nat) [97] 9 =
        some (t', some 5) ∧
      Trie.search t' [97] = some (some 9) ∧
      t'.size = (⟨1, some ⟨none, none, NodeType.Inner,
        [(97, ⟨some [97], some 5, NodeType.Key, []⟩)]⟩⟩ : Trie Nat).size ∧
      ∃ r r' p, (⟨1, some ⟨none, none, NodeType.Inner,
          [(97, ⟨some [97], some 5, NodeType.Key, []⟩)]⟩⟩ : Trie Nat).root =
          some r ∧ t'.root = some r' ∧
        PathTo r [97] p ∧ p.value = some 5 ∧ p.tag = NodeType.Key ∧
        PathTo r' [97] (⟨p.label, some 9, NodeType.Key, p.edges⟩ : Node Nat) :=
  c8_insert_existing _ [97] 5 9 (by decide) rfl

/-! ## C3: longest_prefix misses stored prefixes on a mid-label divergence -/

/-- C3: the claim states `longest_prefix(k)` returns the longest stored key
that is a byte-prefix of `k`, and none only when no stored key is a prefix.
Counterexample: the trie built by inserting `[97]` ("a") and `[97, 98, 99]`
("abc") stores the keys `[[97], [97, 98, 99]]` (second conjunct) and
satisfies the invariants (third conjunct); the query `[97, 98, 120]` ("abx")
has the stored prefix `[97]`, yet `longest_prefix` returns none (first
conjunct): the query diverges in the middle of the label `[98, 99]`, and the
`FoldOrPartial` traversal's `Some(_) => return None` arm
(`src/traverse.rs` line 154) discards the partial stack instead of replaying
it.  The remaining conjuncts show the adjacent cases do work: a full match
(`"abcd"` → `"abc"`) and a missing edge (`"ax"` → `"a"`) both return the
longest stored prefix. -/
theorem c3_longest_prefix_misses_stored :
    ((trieFromList [([97], (1 : Nat)), ([97, 98, 99], 2)]).bind
        (fun t => t.longestPrefixOf [97, 98, 120])) = some none ∧
    ((trieFromList [([97], (1 : Nat)), ([97, 98, 99], 2)]).bind
        (fun t => t.root.map Node.subKeys)) = some [[97], [97, 98, 99]] ∧
    ((trieFromList [([97], (1 : Nat)), ([97, 98, 99], 2)]).map trieWF) =
      some true ∧
    [97] <+: [97, 98, 120] ∧
    ((trieFromList [([97], (1 : Nat)), ([97, 98, 99], 2)]).bind
        (fun t => t.longestPrefixOf [97, 98, 99, 100])) =
      some (some [97, 98, 99]) ∧
    ((trieFromList [([97], (1 : Nat)), ([97, 98, 99], 2)]).bind
        (fun t => t.longestPrefixOf [97, 120])) = some (some [97]) :=
  ⟨rfl, rfl, by decide, by decide, rfl, rfl⟩

/-! ## C7: all_keys panics on the empty prefix -/

/-- C7: the claim states `all_keys(p)` returns exactly the stored keys with
prefix `p` for every prefix, and none when no stored key matches.  The empty
prefix is a prefix of every stored key, so on the one-key trie `{[97]}` the
claim demands `some [[97]]`; instead the call panics (first conjunct, the
panic layer): the `Search` traversal evaluates `token[0]` on the empty
slice (`src/traverse.rs` line 74).  The remaining conjuncts show the same
trie is well-formed, stores exactly `[[97]]`, and that a non-empty prefix
works as claimed. -/
theorem c7_all_keys_empty_panics :
    ((trieFromList [([97], (1 : Nat))]).bind (fun t => t.allKeys [])) = none ∧
    ((trieFromList [([97], (1 : Nat))]).bind (fun t => t.allKeys [97])) =
      some (some [[97]]) ∧
    ((trieFromList [([97], (1 : Nat))]).bind
        (fun t => t.root.map Node.subKeys)) = some [[97]] ∧
    ((trieFromList [([97], (1 : Nat))]).map trieWF) = some true :=
  ⟨rfl, rfl, rfl, by decide⟩

/-! ## C10: removing a missing token is a no-op -/

/-- C10: for every structurally well-formed trie and every non-empty token
that is not stored as a key — whether the token mismatches an edge, ends
partway through a label, or lands on an `Inner` node — `remove` returns
`none` and hands back the very same handle: same size counter and the
identical tree of nodes, labels, tags, values and edges. -/
theorem c10_remove_missing_noop {V : Type} (t : Trie V) (tok : List Nat)
    (hwf : trieWF t = true) (hne : tok ≠ [])
    (hns : ∀ r, t.root = some r → tok ∉ Node.subKeys r) :
    Trie.remove t tok = some (t, none) := by
  match hr : t.root with
  | none => simp only [Trie.remove, hr]
  | some r =>
    have hrwf : rootWF r = true := by
      unfold trieWF at hwf
      rw [hr] at hwf
      exact hwf
    simp only [Trie.remove, hr, remove_not_key_id hrwf hne (hns r hr)]
    simp only [Option.isSome_none, Bool.false_eq_true, if_false,
      Option.some.injEq, Prod.mk.injEq, and_true]
    rw [← hr]

/-- C10 witness: on the concrete trie holding the single key `[97, 98]`
(the handle `trieFromList [([97, 98], 5)]` builds), removing `[97]` — a
strict prefix whose terminal falls inside an edge label — returns `none`
and leaves the handle unchanged. -/
theorem c10_remove_missing_noop_witness :
    Trie.remove (⟨1, some ⟨none, none, NodeType.Inner,
        [(97, ⟨some [97, 98], some 5, NodeType.Key, []⟩)]⟩⟩ : Trie Nat) [97] =
      some (⟨1, some ⟨none, none, NodeType.Inner,
        [(97, ⟨some [97, 98], some 5, NodeType.Key, []⟩)]⟩⟩, none) :=
  c10_remove_missing_noop _ [97] (by decide) (by decide)
    (by
      intro r hr
      injection hr with h
      subst h
      decide)

end RadixTrie
